import Mathlib

/-!
# Verification of the proxy-lab LRU cache and Robin-Hood hashmap

Shallow embedding of `src/hashmap.c`, `src/list.c` and `src/cache.c`.

Modelling conventions:
* Byte strings (keys and values) are `List Nat`; a byte is used modulo 256.
  Key equality is list equality, which coincides with the C
  `keylen` comparison followed by `memcmp`.
* `size_t` arithmetic in the hash function is performed modulo `2 ^ 64`;
  the `(int)` cast of a `char` in `get_hash` is modelled with the usual
  signed (two's-complement, x86-64) reading of a byte.
* The bin array of the hashmap is a `List (Option (RHEntry V))`:
  `none` is a bin whose `key` field is `NULL` (as produced by `calloc`).
  An empty bin in C (`hash = 0`, `keylen = 0`, `key = NULL`) can never
  satisfy the probe's match test, because `get_hash` of the empty string is
  5381 and every other key has `keylen ≥ 1`, so collapsing an empty bin to
  `none` is faithful.
* The C field `map->size` (number of bins) is always equal to the length of
  the allocated array; we therefore use `bins.length` for it.
* Unbounded C loops are given explicit fuel.  The fuel is chosen so large
  that it never runs out on any state where the C loop terminates at all;
  this is proved where the claims need it.
* The doubly-linked circular LRU list is flattened to a `List Block`
  (head first, so the C `head->prev` — the LRU victim — is the last
  element).  Nodes hold block pointers; distinct live blocks are distinct
  structures (the cache never stores two blocks with the same key), so
  pointer comparison in `list_find` becomes structural comparison.
* Allocation failure (`malloc`/`calloc` returning `NULL`) is not modelled;
  the only failure path of `hashmap_resize` that remains is the
  deterministic `size > HASHMAP_MAX` refusal.
-/

namespace ProxyLab

/-- `UINT_MAX`, the value of `HASHMAP_MAX` in hashmap.c. -/
def HASHMAP_MAX : Nat := 4294967295

/-- `1024U * 1024`, the value of `HASHMAP_MAX_GROWTH_STEP` in hashmap.c. -/
def HASHMAP_MAX_GROWTH_STEP : Nat := 1024 * 1024

/-- `approx_85_percent` from hashmap.c: `(x * 870) >> 10`. -/
def approx_85_percent (x : Nat) : Nat := (x * 870) >>> 10

/-- `approx_40_percent` from hashmap.c: `(x * 409) >> 10`. -/
def approx_40_percent (x : Nat) : Nat := (x * 409) >>> 10

/-- A byte read through the C cast `(int)(char c)`: bytes ≥ 128 are negative
on platforms where `char` is signed (x86-64 Linux, the target platform). -/
def byteAsCChar (b : Nat) : Int :=
  if b % 256 < 128 then (b % 256 : Int) else (b % 256 : Int) - 256

/-- One step of the djb2 hash loop from `get_hash`:
`hash = ((hash << 5) + hash) + (int)(*str++)`, in `size_t` arithmetic. -/
def hashStep (h b : Nat) : Nat :=
  ((((h <<< 5) + h : Int) + byteAsCChar b).emod (2 ^ 64)).toNat

/-- `get_hash` from hashmap.c. -/
def get_hash (key : List Nat) : Nat := key.foldl hashStep 5381

/-- An occupied bin of the hash table (`bin_t` with `key ≠ NULL`).
The C `keylen` field is `key.length`. -/
structure RHEntry (V : Type) where
  key : List Nat
  value : V
  hash : Nat
  psl : Nat
deriving DecidableEq, Repr

/-- `hashmap_t`.  The C field `size` (the number of allocated bins) is
`bins.length`; an all-`none` array is what `calloc` produces. -/
structure Hashmap (V : Type) where
  bins : List (Option (RHEntry V))
  minsize : Nat
  length : Nat
deriving DecidableEq, Repr

/-- The C expression `map->size`: the number of bins. -/
def Hashmap.size {V : Type} (m : Hashmap V) : Nat := m.bins.length

/-- Read bin `i` of the array.  Out-of-range reads (possible in C only via
undefined behaviour, e.g. a zero-capacity map) yield an empty bin. -/
def binAt {V : Type} (bins : List (Option (RHEntry V))) (i : Nat) : Option (RHEntry V) :=
  (bins.getD i none)

/-- The probe loop of `hashmap_find`.  `n` is the probe distance, `i` the
current bin index; the C loop header is
`for (size_t n = 0, i = hash % map->size;; ++n, i = (i + 1) % map->size)`.
The match test `bin->hash == hash && bin->keylen == keylen && memcmp == 0`
becomes `bin.hash = hash ∧ bin.key = key`; the termination test is
`bin->key == NULL || n > bin->psl`. -/
def findLoop {V : Type} (bins : List (Option (RHEntry V))) (hash : Nat) (key : List Nat) :
    Nat → Nat → Nat → Option V
  | 0, _, _ => none
  | fuel + 1, n, i =>
    match binAt bins i with
    | some bin =>
      if bin.hash = hash ∧ bin.key = key then some bin.value
      else if bin.psl < n then none
      else findLoop bins hash key fuel (n + 1) ((i + 1) % bins.length)
    | none => none

/-- `hashmap_find` from hashmap.c. -/
def hashmap_find {V : Type} (m : Hashmap V) (key : List Nat) : Option V :=
  let hash := get_hash key
  findLoop m.bins hash key (m.bins.length + 1) 0 (hash % m.bins.length)

/-- The collision loop of `hashmap_insert_no_resize`.  `entry` is the
displaced entry being carried (`bin_t entry` in the C code); the Bool result
records whether `map->length++` was executed (placement in an empty bin), as
opposed to the duplicate-update path.  The duplicate test always compares
against the original key, as in the source. -/
def insLoop {V : Type} (hash : Nat) (key : List Nat) (value : V) :
    Nat → List (Option (RHEntry V)) → RHEntry V → Nat →
    (List (Option (RHEntry V)) × Bool)
  | 0, bins, _, _ => (bins, false)
  | fuel + 1, bins, entry, i =>
    match binAt bins i with
    | some bin =>
      if bin.hash = hash ∧ bin.key = key then
        (bins.set i (some { bin with value := value }), false)
      else
        let step :=
          if bin.psl < entry.psl then (bin, bins.set i (some entry)) else (entry, bins)
        insLoop hash key value fuel step.2
          { step.1 with psl := step.1.psl + 1 } ((i + 1) % bins.length)
    | none => (bins.set i (some entry), true)

/-- `hashmap_insert_no_resize` from hashmap.c. -/
def hashmap_insert_no_resize {V : Type} (m : Hashmap V) (key : List Nat) (value : V) :
    Hashmap V :=
  let hash := get_hash key
  let e : RHEntry V := { key := key, value := value, hash := hash, psl := 0 }
  let r := insLoop hash key value (m.bins.length + 1) m.bins e (hash % m.bins.length)
  { bins := r.1, minsize := m.minsize, length := if r.2 then m.length + 1 else m.length }

/-- The re-insertion loop of `hashmap_resize`: every occupied bin of the old
array is re-inserted (psl values regenerated) into the accumulator map. -/
def reinsertAll {V : Type} (l : List (Option (RHEntry V))) (acc : Hashmap V) : Hashmap V :=
  l.foldl
    (fun acc ob =>
      match ob with
      | none => acc
      | some bin => hashmap_insert_no_resize acc bin.key bin.value)
    acc

/-- `hashmap_resize` from hashmap.c: refuse if the requested size exceeds
`HASHMAP_MAX`, otherwise rebuild by re-inserting every occupied bin into a
fresh zeroed array (`none` on failure models the `-1` return; on failure the
map is untouched). -/
def hashmap_resize {V : Type} (m : Hashmap V) (size : Nat) : Option (Hashmap V) :=
  if size > HASHMAP_MAX then none
  else some (reinsertAll m.bins
    { bins := List.replicate size none, minsize := m.minsize, length := 0 })

/-- `hashmap_insert` from hashmap.c.  Returns `none` (the C `NULL`) and
leaves the map untouched when a required resize fails. -/
def hashmap_insert {V : Type} (m : Hashmap V) (key : List Nat) (value : V) :
    Option V × Hashmap V :=
  let threshold := approx_85_percent m.bins.length
  if m.length > threshold then
    let grow_limit := m.bins.length + HASHMAP_MAX_GROWTH_STEP
    let size := min (m.bins.length <<< 1) grow_limit
    match hashmap_resize m size with
    | none => (none, m)
    | some m' => (some value, hashmap_insert_no_resize m' key value)
  else (some value, hashmap_insert_no_resize m key value)

/-- The locate loop of `hashmap_delete`; returns the index of the bin that
holds the key together with that bin.  The C loop checks
`bin->key == NULL || n > bin->psl` before the match test. -/
def delLocate {V : Type} (bins : List (Option (RHEntry V))) (hash : Nat) (key : List Nat) :
    Nat → Nat → Nat → Option (Nat × RHEntry V)
  | 0, _, _ => none
  | fuel + 1, n, i =>
    match binAt bins i with
    | none => none
    | some bin =>
      if bin.psl < n then none
      else if bin.hash = hash ∧ bin.key = key then some (i, bin)
      else delLocate bins hash key fuel (n + 1) ((i + 1) % bins.length)

/-- Total probe-sequence length of an array; used only to supply fuel to the
backward-shift loop, whose iteration count it bounds. -/
def pslSum {V : Type} (bins : List (Option (RHEntry V))) : Nat :=
  (bins.map (fun ob => match ob with | none => 0 | some e => e.psl)).sum

/-- The backward-shifting loop of `hashmap_delete`: clear the current bin;
stop if the next bin is empty or sits in its home position, otherwise move
it back one slot with its psl decremented. -/
def shiftLoop {V : Type} :
    Nat → List (Option (RHEntry V)) → Nat → List (Option (RHEntry V))
  | 0, bins, _ => bins
  | fuel + 1, bins, i =>
    let bins1 := bins.set i none
    let j := (i + 1) % bins.length
    match binAt bins1 j with
    | none => bins1
    | some nbin =>
      if nbin.psl = 0 then bins1
      else shiftLoop fuel (bins1.set i (some { nbin with psl := nbin.psl - 1 })) j

/-- `hashmap_delete` from hashmap.c.  The downsize threshold is computed
from the capacity at entry; the downsize's `hashmap_resize` return value is
ignored by the source, so a refused downsize leaves the shifted map. -/
def hashmap_delete {V : Type} (m : Hashmap V) (key : List Nat) : Option V × Hashmap V :=
  let threshold := approx_40_percent m.bins.length
  let hash := get_hash key
  match delLocate m.bins hash key (m.bins.length + 1) 0 (hash % m.bins.length) with
  | none => (none, m)
  | some (i, bin) =>
    let bins' := shiftLoop (pslSum m.bins + 1) m.bins i
    let m' : Hashmap V := { bins := bins', minsize := m.minsize, length := m.length - 1 }
    if m'.length > m.minsize ∧ m'.length < threshold then
      match hashmap_resize m' (max (m.bins.length >>> 1) m.minsize) with
      | some m'' => (some bin.value, m'')
      | none => (some bin.value, m')
    else (some bin.value, m')

/-- `hashmap_init` from hashmap.c: `minsize = max(size, 1)`, then an initial
resize to `minsize`.  The C function returns `NULL` when that resize fails
(impossible for `size ≤ HASHMAP_MAX`); the fallback branch is unreachable
for every use in this development. -/
def hashmap_init {V : Type} (size : Nat) : Hashmap V :=
  let m : Hashmap V := { bins := [], minsize := max size 1, length := 0 }
  match hashmap_resize m (max size 1) with
  | some m' => m'
  | none => m

/-! ## The cache (cache.c, with list.c flattened into `List Block`) -/

/-- `block_t` from cache.h.  `get_block` copies `keylen` bytes of key and
`size` bytes of value, so the C fields `keylen` and `size` are the lengths
of the two lists. -/
structure Block where
  key : List Nat
  value : List Nat
deriving DecidableEq, Repr

/-- The C field `block->size` (number of bytes of the value). -/
def Block.size (b : Block) : Nat := b.value.length

/-- The C field `block->keylen`. -/
def Block.keylen (b : Block) : Nat := b.key.length

/-- `cache_t` from cache.h.  The LRU list is head-first: the C `head` is
`lru_list.head?`, and the eviction victim `head->prev` is the last
element. -/
structure Cache where
  map : Hashmap Block
  lru_list : List Block
  size : Nat
  max_size : Nat
deriving DecidableEq, Repr

/-- `cache_init` from cache.c: an empty map of minimum capacity 1 and an
empty list. -/
def cache_init (max_size : Nat) : Cache :=
  { map := hashmap_init 1, lru_list := [], size := 0, max_size := max_size }

/-- `cache_delete` from cache.c.  `hashmap_delete` is keyed on
`block->key`; only when it finds the key is any state modified.  The
`list_find`/`list_delete` pair removes the unique node holding this block
(modelled by `List.erase`; a live cache never holds two equal blocks).
`size -= block->size` is natural subtraction — under the cache invariant the
deleted block's size never exceeds the total.

One C behaviour is deliberately NOT captured by `List.erase`: `list_delete`
updates `list->head` only in its `length == 1` branch (list.c), so deleting
the block at the head of a list with at least two nodes leaves `list->head`
pointing at the node this function immediately frees; the next traversal of
the list in C reads freed memory, while `List.erase` silently repairs the
head.  Every reachability statement below therefore deletes a live block
only under the side condition of `CReach.delete`, which rules the
dangling-head case out.  The eviction loop of `cache_insert` is unaffected:
walking tail-first, it reaches the head only once the head is the sole
remaining node, where the `length == 1` branch resets `list->head`
correctly.  The return value, hash index and `size` computed here are
faithful even in the dangling-head case, since `list_find` walks the list
before `list_delete` corrupts it — only the resulting list is not. -/
def cache_delete (c : Cache) (b : Block) : Int × Cache :=
  match hashmap_delete c.map b.key with
  | (none, _) => (-1, c)
  | (some _, m') =>
    (0, { map := m', lru_list := c.lru_list.erase b,
          size := c.size - b.size, max_size := c.max_size })

/-- The eviction loop of `cache_insert`.  The C loop walks `n = n->prev`
starting at the head, i.e. it visits the nodes of the original list from
the tail backwards (the freed node's `prev` pointer still leads to the next
victim), deleting while `cache->size > cache->max_size`.  The first
argument is that reversed snapshot of the node sequence. -/
def evictLoop : List Block → Cache → Cache
  | [], c => c
  | b :: rest, c =>
    if c.max_size < c.size then evictLoop rest (cache_delete c b).2 else c

/-- `cache_insert` from cache.c.  Note the source order: the duplicate test
comes first (so an over-sized duplicate still returns 0), eviction runs
before the new block is linked, and the return value of `hashmap_insert`
is ignored. -/
def cache_insert (c : Cache) (key value : List Nat) : Int × Cache :=
  match hashmap_find c.map key with
  | some _ => (0, c)
  | none =>
    if c.max_size < value.length then (-1, c)
    else
      let block : Block := { key := key, value := value }
      let c1 : Cache := { c with size := c.size + block.size }
      let c2 := evictLoop c1.lru_list.reverse c1
      let m' := (hashmap_insert c2.map block.key block).2
      (0, { map := m', lru_list := block :: c2.lru_list,
            size := c2.size, max_size := c2.max_size })

/-- `cache_find` from cache.c: look up the block, and on a hit promote its
list node to the head (`list_move_to_head`).  When the block is not on the
list, `list_find` yields `NULL`: with an empty list `list_move_to_head` is
a no-op, and with a non-empty list the C code would dereference `NULL` —
unreachable from any consistent cache state. -/
def cache_find (c : Cache) (key : List Nat) : Option Block × Cache :=
  match hashmap_find c.map key with
  | none => (none, c)
  | some block =>
    (some block,
      { c with lru_list :=
          if block ∈ c.lru_list then block :: c.lru_list.erase block else c.lru_list })

/-! ## Specification-level views of the bin array -/

/-- The association the bin array represents: scan the bins and return the
value of the first bin holding `key`.  Under the Robin-Hood invariant at
most one bin holds any given key, so this is the abstract content of the
table. -/
def lookupBins {V : Type} : List (Option (RHEntry V)) → List Nat → Option V
  | [], _ => none
  | none :: rest, key => lookupBins rest key
  | some e :: rest, key => if e.key = key then some e.value else lookupBins rest key

/-- Holds when the bin is empty or its entry satisfies `P`. -/
def onBin {V : Type} (ob : Option (RHEntry V)) (P : RHEntry V → Prop) : Prop :=
  match ob with
  | none => True
  | some e => P e

/-- Holds when the bin is occupied and its entry satisfies `P`. -/
def someBin {V : Type} (ob : Option (RHEntry V)) (P : RHEntry V → Prop) : Prop :=
  match ob with
  | none => False
  | some e => P e

instance {V : Type} (ob : Option (RHEntry V)) (P : RHEntry V → Prop)
    [hP : ∀ e, Decidable (P e)] : Decidable (onBin ob P) :=
  match ob with
  | none => isTrue True.intro
  | some e => hP e

instance {V : Type} (ob : Option (RHEntry V)) (P : RHEntry V → Prop)
    [hP : ∀ e, Decidable (P e)] : Decidable (someBin ob P) :=
  match ob with
  | none => isFalse (fun h => h.elim)
  | some e => hP e

/-- Number of occupied bins. -/
def occCount {V : Type} (bins : List (Option (RHEntry V))) : Nat :=
  (bins.filterMap id).length

/-- The Robin-Hood layout invariant of the bin array:
* the capacity is positive;
* every occupied bin carries the hash of its own key, and its `psl` field is
  the forward distance from its home position `hash % capacity` to its slot;
* the local Robin-Hood property: a bin with `psl ≥ 1` has an occupied left
  neighbour whose `psl` is at least one smaller (hence every probe path is
  contiguous and occupied);
* distinct occupied bins hold distinct keys. -/
def RHInv {V : Type} (bins : List (Option (RHEntry V))) : Prop :=
  1 ≤ bins.length ∧
  (∀ i, i < bins.length → onBin (binAt bins i) (fun e =>
    e.hash = get_hash e.key ∧
    e.psl = (i + bins.length - e.hash % bins.length) % bins.length)) ∧
  (∀ i, i < bins.length → onBin (binAt bins ((i + 1) % bins.length)) (fun e =>
    1 ≤ e.psl → someBin (binAt bins i) (fun e' => e.psl - 1 ≤ e'.psl))) ∧
  (∀ i, i < bins.length → ∀ j, j < bins.length →
    onBin (binAt bins i) (fun e => onBin (binAt bins j) (fun e' => i ≠ j → e.key ≠ e'.key)))

instance {V : Type} (bins : List (Option (RHEntry V))) : Decidable (RHInv bins) := by
  unfold RHInv
  exact inferInstance

/-- Auxiliary occupancy fact used to reason about deletion: either the table
has a free bin, or some occupied bin sits in its home position.  Every table
reachable by insertions and deletions satisfies it. -/
def RHZ {V : Type} (bins : List (Option (RHEntry V))) : Prop :=
  occCount bins < bins.length ∨
  ∃ i, i < bins.length ∧ someBin (binAt bins i) (fun e => e.psl = 0)

/-- Full hashmap invariant: layout invariant, occupancy fact, and a correct
`length` field. -/
def RHInvFull {V : Type} (m : Hashmap V) : Prop :=
  RHInv m.bins ∧ RHZ m.bins ∧ m.length = occCount m.bins

/-- Hashmap states reachable through the public interface.  The `init` rule
carries the side condition under which the C `hashmap_init` succeeds
(returns non-`NULL`). -/
inductive HReach {V : Type} : Hashmap V → Prop where
  | init : ∀ size, size ≤ HASHMAP_MAX → HReach (hashmap_init size)
  | insert : ∀ m key value, HReach m → HReach (hashmap_insert m key value).2
  | delete : ∀ m key, HReach m → HReach (hashmap_delete m key).2

/-- Cache invariant tying the hash index, the recency list and the byte
count together.  It holds in every reachable cache state (within the trace
bound of `cacheReach_inv`). -/
def CInv (c : Cache) : Prop :=
  RHInvFull c.map ∧
  1 ≤ c.map.minsize ∧
  c.map.length = c.lru_list.length ∧
  (∀ b ∈ c.lru_list, lookupBins c.map.bins b.key = some b) ∧
  (∀ k b, lookupBins c.map.bins k = some b → b ∈ c.lru_list ∧ b.key = k) ∧
  (c.lru_list.map Block.key).Nodup ∧
  c.size = (c.lru_list.map Block.size).sum ∧
  c.size ≤ c.max_size

/-- Cache states reachable through the public interface, indexed by the
number of `cache_insert` calls performed.  The side condition on `delete`
records the two C preconditions for a well-defined call: a block whose key
is live must be on the recency list (otherwise `list_delete` dereferences
the `NULL` returned by `list_find`), and it must not sit at the head of a
list of two or more nodes (otherwise `list_delete` leaves `list->head`
pointing at the node `cache_delete` frees, and the next traversal of the C
list reads freed memory — behaviour `List.erase` does not reproduce). -/
inductive CReach : Nat → Cache → Prop where
  | init : ∀ max_size, CReach 0 (cache_init max_size)
  | insert : ∀ n c key value, CReach n c → CReach (n + 1) (cache_insert c key value).2
  | delete : ∀ n c b, CReach n c →
      ((b ∈ c.lru_list ∧ (c.lru_list.head? ≠ some b ∨ c.lru_list.length = 1)) ∨
        lookupBins c.map.bins b.key = none) →
      CReach n (cache_delete c b).2
  | find : ∀ n c key, CReach n c → CReach n (cache_find c key).2

/-- Bound on the number of inserts below which the hash index can never
refuse a resize: a refusal needs capacity above
`HASHMAP_MAX - HASHMAP_MAX_GROWTH_STEP`, hence a length above 85% of it. -/
def INSERT_BOUND : Nat :=
  approx_85_percent (HASHMAP_MAX - HASHMAP_MAX_GROWTH_STEP + 1)

/-! ## Concrete states used by the scenario claims -/

/-- A 16-byte cache holding key `"a"` with a 5-byte value. -/
def demoCacheC4 : Cache := (cache_insert (cache_init 16) [97] (List.range 5)).2

def demoKA : List Nat := [97]

def demoKB : List Nat := [98]

def demoKC : List Nat := [99]

def demoKD : List Nat := [100]

def demoV2 : List Nat := [1, 2]

/-- `max_size = 6`; keys "a","b","c" inserted in that order with 2-byte
values, filling the cache exactly. -/
def demoCacheABC : Cache :=
  (cache_insert (cache_insert (cache_insert
    (cache_init 6) demoKA demoV2).2 demoKB demoV2).2 demoKC demoV2).2

/-- `demoCacheABC` after `cache_find "a"`. -/
def demoCacheFound : Cache := (cache_find demoCacheABC demoKA).2

/-- `demoCacheFound` after inserting "d", which forces exactly one
eviction. -/
def demoCacheAfterD : Cache := (cache_insert demoCacheFound demoKD demoV2).2

/-- A small hashmap with two entries, used as a witness state. -/
def demoMap : Hashmap Nat :=
  (hashmap_insert (hashmap_insert (hashmap_init 1) [97, 97] 10).2 [97, 98] 11).2

/-! # Lemmas and theorems -/

/-! ## Modular index arithmetic -/

theorem mod_cap_add_dist {cap h i : Nat} (hh : h < cap) (hi : i < cap) :
    (h + (i + cap - h) % cap) % cap = i := by
  rcases le_or_lt h i with hle | hlt
  · have h1 : i + cap - h = (i - h) + cap := by omega
    have h3 : (i - h) % cap = i - h := Nat.mod_eq_of_lt (by omega)
    rw [h1, Nat.add_mod_right, h3]
    have h2 : h + (i - h) = i := by omega
    rw [h2, Nat.mod_eq_of_lt hi]
  · have h1 : (i + cap - h) % cap = i + cap - h := Nat.mod_eq_of_lt (by omega)
    rw [h1]
    have h2 : h + (i + cap - h) = i + cap := by omega
    rw [h2, Nat.add_mod_right, Nat.mod_eq_of_lt hi]

theorem mod_cap_dist_add {cap h n : Nat} (hh : h < cap) (hn : n < cap) :
    ((h + n) % cap + cap - h) % cap = n := by
  rcases lt_or_ge (h + n) cap with hlt | hge
  · rw [Nat.mod_eq_of_lt hlt]
    have h1 : h + n + cap - h = n + cap := by omega
    rw [h1, Nat.add_mod_right, Nat.mod_eq_of_lt hn]
  · have h2 : (h + n) % cap = h + n - cap := by
      rw [Nat.mod_eq_sub_mod hge, Nat.mod_eq_of_lt (by omega)]
    rw [h2]
    have h3 : h + n - cap + cap - h = n := by omega
    rw [h3, Nat.mod_eq_of_lt hn]

theorem mod_cap_slot_inj {cap h n n' : Nat} (hh : h < cap) (hn : n < cap) (hn' : n' < cap)
    (he : (h + n) % cap = (h + n') % cap) : n = n' := by
  rw [← mod_cap_dist_add hh hn, he, mod_cap_dist_add hh hn']

theorem mod_cap_succ (cap h n : Nat) : ((h + n) % cap + 1) % cap = (h + (n + 1)) % cap := by
  rw [Nat.mod_add_mod, Nat.add_assoc]

/-! ## Bin array access -/

theorem binAt_eq_getElem? {V : Type} (bins : List (Option (RHEntry V))) (i : Nat) :
    binAt bins i = (bins[i]?).getD none := by
  simp [binAt, List.getD_eq_getElem?_getD]

theorem binAt_of_lt {V : Type} {bins : List (Option (RHEntry V))} {i : Nat}
    (h : i < bins.length) : binAt bins i = bins[i] := by
  rw [binAt_eq_getElem?, List.getElem?_eq_getElem h]
  rfl

theorem binAt_some_mem {V : Type} {bins : List (Option (RHEntry V))} {i : Nat}
    {e : RHEntry V} (h : binAt bins i = some e) : some e ∈ bins := by
  rw [binAt_eq_getElem?] at h
  cases hx : bins[i]? with
  | none => rw [hx] at h; exact absurd h (by simp)
  | some ob =>
    rw [hx] at h
    simp only [Option.getD_some] at h
    subst h
    exact List.getElem?_mem hx

theorem binAt_lt_length {V : Type} {bins : List (Option (RHEntry V))} {i : Nat}
    {e : RHEntry V} (h : binAt bins i = some e) : i < bins.length := by
  by_contra hge
  rw [binAt_eq_getElem?, List.getElem?_eq_none (by omega)] at h
  exact absurd h (by simp)

theorem binAt_set_self {V : Type} {bins : List (Option (RHEntry V))} {i : Nat}
    (h : i < bins.length) (a : Option (RHEntry V)) : binAt (bins.set i a) i = a := by
  rw [binAt_eq_getElem?, List.getElem?_set_self h]
  rfl

theorem binAt_set_ne {V : Type} {bins : List (Option (RHEntry V))} {i j : Nat}
    (h : i ≠ j) (a : Option (RHEntry V)) : binAt (bins.set i a) j = binAt bins j := by
  rw [binAt_eq_getElem?, List.getElem?_set_ne h, ← binAt_eq_getElem?]

/-! ## lookupBins -/

theorem lookupBins_cons_none {V : Type} (rest : List (Option (RHEntry V))) (k : List Nat) :
    lookupBins (none :: rest) k = lookupBins rest k := rfl

theorem lookupBins_cons_some {V : Type} (e : RHEntry V) (rest : List (Option (RHEntry V)))
    (k : List Nat) :
    lookupBins (some e :: rest) k = if e.key = k then some e.value else lookupBins rest k := rfl

theorem lookupBins_none_key {V : Type} {bins : List (Option (RHEntry V))} {k : List Nat}
    (h : lookupBins bins k = none) : ∀ e : RHEntry V, some e ∈ bins → e.key ≠ k := by
  induction bins with
  | nil => intro e he; exact absurd he (by simp)
  | cons ob rest ih =>
    intro e he
    cases ob with
    | none =>
      rw [lookupBins_cons_none] at h
      rcases List.mem_cons.mp he with h1 | h1
      · exact absurd h1.symm (by simp)
      · exact ih h e h1
    | some e' =>
      rw [lookupBins_cons_some] at h
      by_cases hk : e'.key = k
      · rw [if_pos hk] at h; exact absurd h (by simp)
      · rw [if_neg hk] at h
        rcases List.mem_cons.mp he with h1 | h1
        · cases h1; exact hk
        · exact ih h e h1

theorem lookupBins_of_binAt {V : Type} {bins : List (Option (RHEntry V))} {k : List Nat} :
    ∀ {i : Nat} {e : RHEntry V}, binAt bins i = some e → e.key = k →
    (∀ j, j < bins.length → j ≠ i → onBin (binAt bins j) (fun e' => e'.key ≠ k)) →
    lookupBins bins k = some e.value := by
  induction bins with
  | nil => intro i e hb _ _; exact absurd hb (by simp [binAt])
  | cons ob rest ih =>
    intro i e hb hk hothers
    cases i with
    | zero =>
      have : ob = some e := by simpa [binAt] using hb
      subst this
      rw [lookupBins_cons_some, if_pos hk]
    | succ i =>
      have hb' : binAt rest i = some e := by simpa [binAt, List.getD_cons_succ] using hb
      have hoth' : ∀ j, j < rest.length → j ≠ i →
          onBin (binAt rest j) (fun e' => e'.key ≠ k) := by
        intro j hj hne
        have := hothers (j + 1) (by simpa using Nat.succ_lt_succ hj) (by omega)
        simpa [binAt, List.getD_cons_succ] using this
      cases ob with
      | none => rw [lookupBins_cons_none]; exact ih hb' hk hoth'
      | some e' =>
        have h0 := hothers 0 (by simp) (by omega)
        have : e'.key ≠ k := by simpa [binAt, onBin] using h0
        rw [lookupBins_cons_some, if_neg this]
        exact ih hb' hk hoth'

theorem lookupBins_some_exists {V : Type} {bins : List (Option (RHEntry V))} {k : List Nat}
    {v : V} (h : lookupBins bins k = some v) :
    ∃ i, ∃ e : RHEntry V, i < bins.length ∧ binAt bins i = some e ∧ e.key = k ∧ e.value = v := by
  induction bins with
  | nil => exact absurd h (by simp [lookupBins])
  | cons ob rest ih =>
    cases ob with
    | none =>
      rw [lookupBins_cons_none] at h
      obtain ⟨i, e, hi, hb, hk, hv⟩ := ih h
      exact ⟨i + 1, e, by simpa using Nat.succ_lt_succ hi,
        by simpa [binAt, List.getD_cons_succ] using hb, hk, hv⟩
    | some e' =>
      rw [lookupBins_cons_some] at h
      by_cases hk : e'.key = k
      · rw [if_pos hk] at h
        exact ⟨0, e', by simp, by simp [binAt], hk, Option.some.inj h⟩
      · rw [if_neg hk] at h
        obtain ⟨i, e, hi, hb, hk2, hv⟩ := ih h
        exact ⟨i + 1, e, by simpa using Nat.succ_lt_succ hi,
          by simpa [binAt, List.getD_cons_succ] using hb, hk2, hv⟩

/-! ## Shape preservation: capacity and minsize -/

theorem insLoop_length {V : Type} (hash : Nat) (key : List Nat) (value : V) :
    ∀ (fuel : Nat) (bins : List (Option (RHEntry V))) (entry : RHEntry V) (i : Nat),
    ((insLoop hash key value fuel bins entry i).1).length = bins.length := by
  intro fuel
  induction fuel with
  | zero => intro bins entry i; rfl
  | succ f ih =>
    intro bins entry i
    unfold insLoop
    cases hb : binAt bins i with
    | none => simp
    | some bin =>
      by_cases hm : bin.hash = hash ∧ bin.key = key
      · simp [hm]
      · by_cases hp : bin.psl < entry.psl
        · simp only [hm, if_false, hp, if_true]
          rw [ih]
          simp
        · simp only [hm, if_false, hp, if_true]
          rw [ih]

theorem hashmap_insert_no_resize_shape {V : Type} (m : Hashmap V) (key : List Nat) (value : V) :
    ((hashmap_insert_no_resize m key value).bins.length = m.bins.length) ∧
    (hashmap_insert_no_resize m key value).minsize = m.minsize := by
  unfold hashmap_insert_no_resize
  exact ⟨insLoop_length _ _ _ _ _ _ _, rfl⟩

theorem reinsertAll_shape {V : Type} :
    ∀ (l : List (Option (RHEntry V))) (acc : Hashmap V),
    ((reinsertAll l acc).bins.length = acc.bins.length) ∧
    (reinsertAll l acc).minsize = acc.minsize := by
  intro l
  induction l with
  | nil => intro acc; exact ⟨rfl, rfl⟩
  | cons ob rest ih =>
    intro acc
    cases ob with
    | none => exact ih acc
    | some bin =>
      have h1 := ih (hashmap_insert_no_resize acc bin.key bin.value)
      have h2 := hashmap_insert_no_resize_shape acc bin.key bin.value
      refine ⟨?_, ?_⟩
      · calc (reinsertAll (some bin :: rest) acc).bins.length
            = (reinsertAll rest (hashmap_insert_no_resize acc bin.key bin.value)).bins.length := rfl
          _ = acc.bins.length := by rw [h1.1, h2.1]
      · calc (reinsertAll (some bin :: rest) acc).minsize
            = (reinsertAll rest (hashmap_insert_no_resize acc bin.key bin.value)).minsize := rfl
          _ = acc.minsize := by rw [h1.2, h2.2]

theorem hashmap_resize_shape {V : Type} {m m' : Hashmap V} {size : Nat}
    (h : hashmap_resize m size = some m') :
    m'.bins.length = size ∧ m'.minsize = m.minsize ∧ size ≤ HASHMAP_MAX := by
  unfold hashmap_resize at h
  by_cases hgt : size > HASHMAP_MAX
  · rw [if_pos hgt] at h; exact absurd h (by simp)
  · rw [if_neg hgt] at h
    have h' := Option.some.inj h
    have hs := reinsertAll_shape m.bins
      { bins := List.replicate size none, minsize := m.minsize, length := 0 }
    rw [h'] at hs
    refine ⟨?_, ?_, by omega⟩
    · rw [hs.1]; simp
    · exact hs.2

theorem hashmap_resize_fail {V : Type} {m : Hashmap V} {size : Nat}
    (h : HASHMAP_MAX < size) : hashmap_resize m size = none := by
  unfold hashmap_resize
  rw [if_pos h]

theorem shiftLoop_length {V : Type} :
    ∀ (fuel : Nat) (bins : List (Option (RHEntry V))) (i : Nat),
    (shiftLoop fuel bins i).length = bins.length := by
  intro fuel
  induction fuel with
  | zero => intro bins i; rfl
  | succ f ih =>
    intro bins i
    unfold shiftLoop
    cases hb : binAt (bins.set i none) ((i + 1) % bins.length) with
    | none => simp only [hb]; simp
    | some nbin =>
      simp only [hb]
      by_cases hz : nbin.psl = 0
      · simp [hz]
      · simp only [hz, if_false]
        rw [ih]
        simp

theorem hashmap_init_spec {V : Type} (size : Nat) (h : size ≤ HASHMAP_MAX) :
    ((hashmap_init size : Hashmap V).bins.length = max size 1) ∧
    ((hashmap_init size : Hashmap V).minsize = max size 1) ∧
    (hashmap_init size : Hashmap V).bins = List.replicate (max size 1) none ∧
    (hashmap_init size : Hashmap V).length = 0 := by
  have hle : max size 1 ≤ HASHMAP_MAX := by
    have : (1 : Nat) ≤ HASHMAP_MAX := by norm_num [HASHMAP_MAX]
    omega
  have hc : ¬ (max size 1 > HASHMAP_MAX) := by omega
  unfold hashmap_init hashmap_resize
  simp only [hc, if_false, reinsertAll, List.foldl_nil]
  simp

/-! ## Absent keys -/

theorem delLocate_of_absent {V : Type} {bins : List (Option (RHEntry V))} {k : List Nat}
    (h : lookupBins bins k = none) (hash : Nat) :
    ∀ fuel n i, delLocate bins hash k fuel n i = none := by
  intro fuel
  induction fuel with
  | zero => intro n i; rfl
  | succ f ih =>
    intro n i
    unfold delLocate
    cases hb : binAt bins i with
    | none => simp only [hb]
    | some bin =>
      simp only [hb]
      have hk : bin.key ≠ k := lookupBins_none_key h bin (binAt_some_mem hb)
      by_cases hp : bin.psl < n
      · simp [hp]
      · have hm : ¬ (bin.hash = hash ∧ bin.key = k) := fun hc => hk hc.2
        simp only [hp, if_false, hm]
        exact ih _ _

theorem hashmap_delete_of_absent {V : Type} {m : Hashmap V} {k : List Nat}
    (h : lookupBins m.bins k = none) : hashmap_delete m k = (none, m) := by
  unfold hashmap_delete
  simp only [delLocate_of_absent h]

/-- Claim C9: atomicity of `cache_delete` on a missing key: when the block's
key is not in the hash index, `cache_delete` returns `-1` and the cache —
`bytes_used`, hash index and recency list — is exactly as before; state is
mutated only when the hash-index delete finds the key. -/
theorem cache_delete_missing_key_noop (c : Cache) (b : Block)
    (h : lookupBins c.map.bins b.key = none) : cache_delete c b = (-1, c) := by
  unfold cache_delete
  rw [hashmap_delete_of_absent h]

/-- Witness for C9 at a concrete state: deleting a never-inserted block from
a freshly initialized cache. -/
theorem cache_delete_missing_key_noop_witness :
    lookupBins (cache_init 16).map.bins [97] = none ∧
    cache_delete (cache_init 16) ⟨[97], [1]⟩ = (-1, cache_init 16) :=
  ⟨by decide, cache_delete_missing_key_noop _ _ (by decide)⟩

/-- Claim C3: first-write-wins.  If the key is already present,
`cache_insert` returns 0 (`AlreadyPresent`) and leaves the cache completely
unchanged — same stored value, same `bytes_used`, same recency order. -/
theorem cache_insert_first_write_wins (c : Cache) (k v2 : List Nat) (b : Block)
    (h : hashmap_find c.map k = some b) : cache_insert c k v2 = (0, c) := by
  unfold cache_insert
  rw [h]

/-- Witness for C3: re-inserting key "a" with a different value leaves the
demo cache untouched and returns 0. -/
theorem cache_insert_first_write_wins_witness :
    hashmap_find demoCacheC4.map [97] = some (Block.mk [97] (List.range 5)) ∧
    cache_insert demoCacheC4 [97] [9, 9, 9] = (0, demoCacheC4) :=
  ⟨by decide,
    cache_insert_first_write_wins demoCacheC4 [97] [9, 9, 9]
      (Block.mk [97] (List.range 5)) (by decide)⟩

/-- Counterexample to claim C4 as stated: for a key that is already present,
an insertion whose size exceeds `max_size` does not return `TooLarge` (-1);
the duplicate test runs first and the call returns 0. -/
theorem cache_insert_too_large_present_key_cex :
    demoCacheC4.max_size < (List.range 17).length ∧
    hashmap_find demoCacheC4.map [97] = some (Block.mk [97] (List.range 5)) ∧
    (cache_insert demoCacheC4 [97] (List.range 17)).1 = 0 := by
  refine ⟨by decide, by decide, by decide⟩

/-- Claim C4 (amended): for every cache and insertion with
`size > max_size`, the cache is left unmodified; the return value is
`TooLarge` (-1) when the key is absent, but 0 (`AlreadyPresent`) when the
key is already present, because the duplicate test precedes the size
test. -/
theorem cache_insert_too_large_rule (c : Cache) (k v : List Nat)
    (hsize : c.max_size < v.length) :
    (hashmap_find c.map k = none → cache_insert c k v = (-1, c)) ∧
    (∀ b, hashmap_find c.map k = some b → cache_insert c k v = (0, c)) := by
  constructor
  · intro h
    unfold cache_insert
    rw [h, if_pos hsize]
  · intro b h
    unfold cache_insert
    rw [h]

/-- Witness for C4 (amended): a 17-byte value is refused by a 16-byte cache
when the key is absent. -/
theorem cache_insert_too_large_rule_witness :
    (cache_init 16).max_size < (List.range 17).length ∧
    cache_insert (cache_init 16) [120] (List.range 17) = (-1, cache_init 16) :=
  ⟨by decide, (cache_insert_too_large_rule _ _ _ (by decide)).1 (by decide)⟩

/-- Claim C8: `cache_insert` can only ever return 0 or -1, and -1 only on
the `TooLarge` path.  There is no distinguishable `OutOfMemory` result: the
source ignores the `NULL` return of `hashmap_insert` (and `get_block` never
checks its allocations), contradicting the claimed error contract. -/
theorem cache_insert_result_codomain (c : Cache) (k v : List Nat) :
    ((cache_insert c k v).1 = 0 ∨ (cache_insert c k v).1 = -1) ∧
    ((cache_insert c k v).1 = -1 → c.max_size < v.length) := by
  cases h : hashmap_find c.map k with
  | some b =>
    have he : cache_insert c k v = (0, c) := by unfold cache_insert; rw [h]
    rw [he]
    simp
  | none =>
    by_cases hsize : c.max_size < v.length
    · have he : cache_insert c k v = (-1, c) := by unfold cache_insert; rw [h, if_pos hsize]
      rw [he]
      simp [hsize]
    · have he : (cache_insert c k v).1 = 0 := by unfold cache_insert; rw [h, if_neg hsize]
      rw [he]
      simp

/-- Claim C5: `cache_find` on a present key moves its entry to the head of
the recency list; eviction removes the tail.  Concretely: after inserting
"a","b","c" and calling `find "a"`, the recency order (MRU first) is
"a","c","b", and the next insert that forces one eviction removes "b". -/
theorem cache_find_promotes_and_eviction_takes_tail :
    (∀ (c : Cache) (k : List Nat) (b : Block),
      hashmap_find c.map k = some b → b ∈ c.lru_list →
      (cache_find c k).1 = some b ∧
      (cache_find c k).2.lru_list = b :: c.lru_list.erase b) ∧
    demoCacheABC.lru_list.map Block.key = [demoKC, demoKB, demoKA] ∧
    demoCacheFound.lru_list.map Block.key = [demoKA, demoKC, demoKB] ∧
    demoCacheAfterD.lru_list.map Block.key = [demoKD, demoKA, demoKC] ∧
    hashmap_find demoCacheAfterD.map demoKB = none ∧
    (cache_find demoCacheAfterD demoKB).1 = none := by
  refine ⟨?_, by decide, by decide, by decide, by decide, by decide⟩
  intro c k b hf hmem
  unfold cache_find
  rw [hf]
  refine ⟨rfl, ?_⟩
  show (if b ∈ c.lru_list then b :: c.lru_list.erase b else c.lru_list) =
    b :: c.lru_list.erase b
  rw [if_pos hmem]

/-- Witness for C5: the promotion statement applied to the concrete
three-entry cache. -/
theorem cache_find_promotes_witness :
    hashmap_find demoCacheABC.map demoKA = some ⟨demoKA, demoV2⟩ ∧
    (⟨demoKA, demoV2⟩ : Block) ∈ demoCacheABC.lru_list ∧
    (cache_find demoCacheABC demoKA).2.lru_list =
      ⟨demoKA, demoV2⟩ :: demoCacheABC.lru_list.erase ⟨demoKA, demoV2⟩ :=
  ⟨by decide, by decide,
    (cache_find_promotes_and_eviction_takes_tail.1 _ _ _ (by decide) (by decide)).2⟩

/-- Counterexample to claim C7 as stated: at capacity 1 with an empty table,
an insert "would push length past ⌊capacity * 0.85⌋ = 0", so the claim
demands a resize to `min(2, 1 + 2^20) = 2`; the code's threshold is
`(1 * 870) >> 10 = 0` and `length = 0 > 0` fails, so no resize happens and
the capacity stays 1. -/
theorem hashmap_upsize_trigger_cex :
    ((hashmap_init 1 : Hashmap Nat).length + 1 >
      (hashmap_init 1 : Hashmap Nat).bins.length * 85 / 100) ∧
    min ((hashmap_init 1 : Hashmap Nat).bins.length * 2)
      ((hashmap_init 1 : Hashmap Nat).bins.length + 2 ^ 20) = 2 ∧
    ((hashmap_insert (hashmap_init 1 : Hashmap Nat) [97] 0).2).bins.length = 1 := by
  refine ⟨by decide, by decide, by decide⟩

/-- Claim C7 (amended): `hashmap_insert` attempts a resize exactly when the
pre-insert `length` exceeds `(capacity * 870) >> 10` (approximately 85%);
the new capacity is `min(capacity * 2, capacity + 2^20)`, and an insert
whose resize would exceed `HASHMAP_MAX` is refused with `NULL`, leaving the
map unchanged. -/
theorem hashmap_insert_upsize_rule {V : Type} (m : Hashmap V) (k : List Nat) (v : V) :
    (approx_85_percent m.bins.length < m.length →
      (min (m.bins.length <<< 1) (m.bins.length + HASHMAP_MAX_GROWTH_STEP) ≤ HASHMAP_MAX →
        ((hashmap_insert m k v).2).bins.length =
          min (m.bins.length <<< 1) (m.bins.length + HASHMAP_MAX_GROWTH_STEP)) ∧
      (HASHMAP_MAX < min (m.bins.length <<< 1) (m.bins.length + HASHMAP_MAX_GROWTH_STEP) →
        hashmap_insert m k v = (none, m))) ∧
    (m.length ≤ approx_85_percent m.bins.length →
      ((hashmap_insert m k v).2).bins.length = m.bins.length) := by
  constructor
  · intro htrig
    constructor
    · intro hle
      cases hr : hashmap_resize m
          (min (m.bins.length <<< 1) (m.bins.length + HASHMAP_MAX_GROWTH_STEP)) with
      | none =>
        exfalso
        unfold hashmap_resize at hr
        rw [if_neg (by omega)] at hr
        exact absurd hr (by simp)
      | some m' =>
        unfold hashmap_insert
        rw [if_pos htrig]
        simp only [hr]
        calc (hashmap_insert_no_resize m' k v).bins.length
            = m'.bins.length := (hashmap_insert_no_resize_shape m' k v).1
          _ = _ := (hashmap_resize_shape hr).1
    · intro hgt
      unfold hashmap_insert
      rw [if_pos htrig]
      simp only [hashmap_resize_fail hgt]
  · intro hle
    unfold hashmap_insert
    rw [if_neg (by omega)]
    exact (hashmap_insert_no_resize_shape m k v).1

/-- Witness for C7 (amended): the first insert into a fresh capacity-1 table
does not trigger a resize. -/
theorem hashmap_insert_upsize_rule_witness :
    (hashmap_init 1 : Hashmap Nat).length ≤
      approx_85_percent (hashmap_init 1 : Hashmap Nat).bins.length ∧
    ((hashmap_insert (hashmap_init 1 : Hashmap Nat) [97] 0).2).bins.length =
      (hashmap_init 1 : Hashmap Nat).bins.length :=
  ⟨by decide, (hashmap_insert_upsize_rule _ _ _).2 (by decide)⟩

/-- Claim C10: the hashmap capacity is never zero.  `hashmap_init 0` clamps
to capacity 1, and along every reachable state `1 ≤ minsize ≤ capacity`, so
the index computation `hash % capacity` in find, insert and delete never
divides by zero. -/
theorem hashmap_capacity_never_zero {V : Type} :
    ((hashmap_init 0 : Hashmap V).bins.length = 1) ∧
    ∀ m : Hashmap V, HReach m → 1 ≤ m.minsize ∧ m.minsize ≤ m.bins.length := by
  constructor
  · have h := hashmap_init_spec (V := V) 0 (by norm_num [HASHMAP_MAX])
    simpa using h.1
  · intro m hm
    induction hm with
    | init size hsize =>
      have h := hashmap_init_spec (V := V) size hsize
      refine ⟨?_, ?_⟩
      · rw [h.2.1]; omega
      · rw [h.2.1, h.1]
    | insert m k v hm ih =>
      by_cases htrig : m.length > approx_85_percent m.bins.length
      · cases hr : hashmap_resize m
            (min (m.bins.length <<< 1) (m.bins.length + HASHMAP_MAX_GROWTH_STEP)) with
        | none =>
          unfold hashmap_insert
          rw [if_pos htrig]
          simp only [hr]
          exact ih
        | some m' =>
          unfold hashmap_insert
          rw [if_pos htrig]
          simp only [hr]
          have hshape := hashmap_insert_no_resize_shape m' k v
          have hrs := hashmap_resize_shape hr
          refine ⟨?_, ?_⟩
          · rw [hshape.2, hrs.2.1]; exact ih.1
          · rw [hshape.2, hrs.2.1, hshape.1, hrs.1]
            have h2 : m.bins.length ≤
                min (m.bins.length <<< 1) (m.bins.length + HASHMAP_MAX_GROWTH_STEP) := by
              rw [Nat.shiftLeft_eq]
              refine le_min (by omega) (by omega)
            omega
      · unfold hashmap_insert
        rw [if_neg htrig]
        have hshape := hashmap_insert_no_resize_shape m k v
        exact ⟨by rw [hshape.2]; exact ih.1, by rw [hshape.2, hshape.1]; exact ih.2⟩
    | delete m k hm ih =>
      unfold hashmap_delete
      cases hl : delLocate m.bins (get_hash k) k (m.bins.length + 1) 0
          (get_hash k % m.bins.length) with
      | none => simp only [hl]; exact ih
      | some p =>
        obtain ⟨i, bin⟩ := p
        simp only [hl]
        by_cases hcond : m.length - 1 > m.minsize ∧ m.length - 1 < approx_40_percent m.bins.length
        · rw [if_pos hcond]
          cases hr : hashmap_resize
              { bins := shiftLoop (pslSum m.bins + 1) m.bins i,
                minsize := m.minsize, length := m.length - 1 }
              (max (m.bins.length >>> 1) m.minsize) with
          | none =>
            simp only [hr]
            exact ⟨ih.1, by rw [shiftLoop_length]; exact ih.2⟩
          | some m'' =>
            simp only [hr]
            have hrs := hashmap_resize_shape hr
            exact ⟨by rw [hrs.2.1]; exact ih.1,
              by rw [hrs.2.1, hrs.1]; exact le_max_right _ _⟩
        · rw [if_neg hcond]
          exact ⟨ih.1, by rw [shiftLoop_length]; exact ih.2⟩

/-- Witness for C10: the invariant instantiated at the concrete state
`hashmap_init 0`. -/
theorem hashmap_capacity_never_zero_witness :
    1 ≤ (hashmap_init 0 : Hashmap Nat).minsize ∧
    (hashmap_init 0 : Hashmap Nat).minsize ≤ (hashmap_init 0 : Hashmap Nat).bins.length :=
  hashmap_capacity_never_zero.2 _ (HReach.init 0 (by norm_num [HASHMAP_MAX]))

/-! ## Consequences of the Robin-Hood layout invariant -/

theorem someBin_elim {V : Type} {ob : Option (RHEntry V)} {P : RHEntry V → Prop}
    (h : someBin ob P) : ∃ e, ob = some e ∧ P e := by
  cases ob with
  | none => exact h.elim
  | some e => exact ⟨e, rfl, h⟩

theorem someBin_intro {V : Type} {ob : Option (RHEntry V)} {P : RHEntry V → Prop}
    {e : RHEntry V} (hb : ob = some e) (hp : P e) : someBin ob P := by
  rw [hb]; exact hp

theorem RHInv.cap_pos {V : Type} {bins : List (Option (RHEntry V))} (h : RHInv bins) :
    0 < bins.length := h.1

theorem RHInv.hash_psl {V : Type} {bins : List (Option (RHEntry V))} (h : RHInv bins)
    {i : Nat} {e : RHEntry V} (hb : binAt bins i = some e) :
    e.hash = get_hash e.key ∧
    e.psl = (i + bins.length - e.hash % bins.length) % bins.length := by
  have hi := binAt_lt_length hb
  have h2 := h.2.1 i hi
  rw [hb] at h2
  exact h2

theorem RHInv.psl_lt {V : Type} {bins : List (Option (RHEntry V))} (h : RHInv bins)
    {i : Nat} {e : RHEntry V} (hb : binAt bins i = some e) : e.psl < bins.length := by
  rw [(h.hash_psl hb).2]
  exact Nat.mod_lt _ h.cap_pos

theorem RHInv.slot_eq {V : Type} {bins : List (Option (RHEntry V))} (h : RHInv bins)
    {i : Nat} {e : RHEntry V} (hb : binAt bins i = some e) :
    (e.hash % bins.length + e.psl) % bins.length = i := by
  rw [(h.hash_psl hb).2]
  exact mod_cap_add_dist (Nat.mod_lt _ h.cap_pos) (binAt_lt_length hb)

theorem RHInv.left_nb {V : Type} {bins : List (Option (RHEntry V))} (h : RHInv bins)
    {i : Nat} (hi : i < bins.length) {e : RHEntry V}
    (hb : binAt bins ((i + 1) % bins.length) = some e) (hp : 1 ≤ e.psl) :
    someBin (binAt bins i) (fun e' => e.psl - 1 ≤ e'.psl) := by
  have h2 := h.2.2.1 i hi
  rw [hb] at h2
  exact h2 hp

theorem RHInv.key_ne {V : Type} {bins : List (Option (RHEntry V))} (h : RHInv bins)
    {i j : Nat} {e e' : RHEntry V} (hne : i ≠ j)
    (hbi : binAt bins i = some e) (hbj : binAt bins j = some e') : e.key ≠ e'.key := by
  have h2 := h.2.2.2 i (binAt_lt_length hbi) j (binAt_lt_length hbj)
  rw [hbi, hbj] at h2
  exact h2 hne

/-- Probe-path coverage: every slot at distance `n ≤ psl` from an occupied
bin's home position is occupied, with a psl of at least `n`. -/
theorem RHInv.cover {V : Type} {bins : List (Option (RHEntry V))} (h : RHInv bins)
    {j : Nat} {e : RHEntry V} (hb : binAt bins j = some e) :
    ∀ d n, n + d = e.psl →
    someBin (binAt bins ((e.hash % bins.length + n) % bins.length))
      (fun e' => n ≤ e'.psl) := by
  intro d
  induction d with
  | zero =>
    intro n hn
    have hn' : n = e.psl := by omega
    subst hn'
    exact someBin_intro (by rw [h.slot_eq hb]; exact hb) le_rfl
  | succ d ih =>
    intro n hn
    have hsucc := ih (n + 1) (by omega)
    obtain ⟨e', hs, hp⟩ := someBin_elim hsucc
    have hi0 : (e.hash % bins.length + n) % bins.length < bins.length :=
      Nat.mod_lt _ h.cap_pos
    have hs' : binAt bins (((e.hash % bins.length + n) % bins.length + 1) % bins.length)
        = some e' := by
      rw [mod_cap_succ]; exact hs
    have hnb := h.left_nb hi0 hs' (by omega)
    obtain ⟨e'', hb'', hp''⟩ := someBin_elim hnb
    exact someBin_intro hb'' (by omega)

/-- Probe success: when the key is stored at its invariant position, the
probe loop of `hashmap_find` reaches it and returns its value. -/
theorem findLoop_present {V : Type} {bins : List (Option (RHEntry V))} (h : RHInv bins)
    {k : List Nat} {j : Nat} {e : RHEntry V}
    (hb : binAt bins j = some e) (hk : e.key = k) :
    ∀ fuel n, n ≤ e.psl → e.psl - n < fuel →
    findLoop bins (get_hash k) k fuel n ((get_hash k % bins.length + n) % bins.length) =
      some e.value := by
  have hh : e.hash = get_hash k := by rw [(h.hash_psl hb).1, hk]
  intro fuel
  induction fuel with
  | zero => intro n hn hfuel; omega
  | succ f ih =>
    intro n hn hfuel
    by_cases hcase : n = e.psl
    · subst hcase
      unfold findLoop
      have hslot : (get_hash k % bins.length + e.psl) % bins.length = j := by
        rw [← hh]; exact h.slot_eq hb
      rw [hslot]
      simp only [hb]
      rw [if_pos ⟨hh, hk⟩]
    · have hlt : n < e.psl := by omega
      have hcov := h.cover hb (e.psl - n) n (by omega)
      rw [hh] at hcov
      obtain ⟨e', hb', hp'⟩ := someBin_elim hcov
      have hne : (get_hash k % bins.length + n) % bins.length ≠ j := by
        intro heq
        have hj : (get_hash k % bins.length + e.psl) % bins.length = j := by
          rw [← hh]; exact h.slot_eq hb
        rw [← hj] at heq
        have := mod_cap_slot_inj (Nat.mod_lt _ h.cap_pos)
          (lt_trans hlt (h.psl_lt hb)) (h.psl_lt hb) heq
        omega
      have hkne : e'.key ≠ k := by
        intro heq
        exact h.key_ne hne hb' hb (by rw [heq, hk])
      unfold findLoop
      simp only [hb']
      rw [if_neg (fun hc => hkne hc.2), if_neg (by omega), mod_cap_succ]
      exact ih (n + 1) (by omega) (by omega)

/-- Probe failure: when no bin holds the key, the probe loop returns
`none` — with any fuel, from any starting point. -/
theorem findLoop_absent {V : Type} {bins : List (Option (RHEntry V))} {k : List Nat}
    (h : lookupBins bins k = none) (hash : Nat) :
    ∀ fuel n i, findLoop bins hash k fuel n i = none := by
  intro fuel
  induction fuel with
  | zero => intro n i; rfl
  | succ f ih =>
    intro n i
    unfold findLoop
    cases hb : binAt bins i with
    | none => simp only [hb]
    | some bin =>
      simp only [hb]
      have hk : bin.key ≠ k := lookupBins_none_key h bin (binAt_some_mem hb)
      rw [if_neg (fun hc => hk hc.2)]
      by_cases hp : bin.psl < n
      · rw [if_pos hp]
      · rw [if_neg hp]
        exact ih _ _

/-- Helper form of claim C6, shared with the cache development:
under the Robin-Hood layout invariant, `hashmap_find` computes exactly the
association represented by the bins. -/
theorem find_eq_lookupBins {V : Type} (m : Hashmap V) (k : List Nat)
    (h : RHInv m.bins) : hashmap_find m k = lookupBins m.bins k := by
  cases hl : lookupBins m.bins k with
  | none =>
    unfold hashmap_find
    exact findLoop_absent hl _ _ _ _
  | some v =>
    obtain ⟨i, e, hi, hb, hk, hv⟩ := lookupBins_some_exists hl
    show findLoop m.bins (get_hash k) k (m.bins.length + 1) 0
      (get_hash k % m.bins.length) = some v
    have hstart : get_hash k % m.bins.length =
        (get_hash k % m.bins.length + 0) % m.bins.length := by
      rw [Nat.add_zero, Nat.mod_eq_of_lt (Nat.mod_lt _ h.cap_pos)]
    rw [hstart, findLoop_present h hb hk (m.bins.length + 1) 0 (by omega)
      (by have := h.psl_lt hb; omega), hv]

/-- Claim C6: for every hashmap satisfying the Robin-Hood layout invariant
and every key, `hashmap_find` (probing from `hash % capacity`, stopping at
an empty bin or when the probe distance exceeds the bin's stored psl)
returns the stored value exactly when the key is present: it equals the
association represented by the bin array. -/
theorem hashmap_find_robin_hood_correct {V : Type} (m : Hashmap V) (k : List Nat)
    (h : RHInv m.bins) : hashmap_find m k = lookupBins m.bins k :=
  find_eq_lookupBins m k h

/-- Witness for C6: the correctness statement evaluated on a concrete
two-entry table, for a present and for an absent key. -/
theorem hashmap_find_robin_hood_correct_witness :
    RHInv demoMap.bins ∧
    (hashmap_find demoMap [97, 98] = lookupBins demoMap.bins [97, 98] ∧
      hashmap_find demoMap [97, 99] = lookupBins demoMap.bins [97, 99]) :=
  ⟨by decide,
    hashmap_find_robin_hood_correct demoMap [97, 98] (by decide),
    hashmap_find_robin_hood_correct demoMap [97, 99] (by decide)⟩

/-! ## Counting, psl sums, and updates of the bin array -/

theorem occCount_cons_none {V : Type} (rest : List (Option (RHEntry V))) :
    occCount (none :: rest) = occCount rest := rfl

theorem occCount_cons_some {V : Type} (e : RHEntry V) (rest : List (Option (RHEntry V))) :
    occCount (some e :: rest) = occCount rest + 1 := by
  simp [occCount, List.filterMap_cons]

theorem occCount_le {V : Type} (bins : List (Option (RHEntry V))) :
    occCount bins ≤ bins.length := by
  simpa [occCount] using List.length_filterMap_le id bins

theorem occCount_set_none_some {V : Type} {e : RHEntry V} :
    ∀ {bins : List (Option (RHEntry V))} {i : Nat}, binAt bins i = none → i < bins.length →
    occCount (bins.set i (some e)) = occCount bins + 1 := by
  intro bins
  induction bins with
  | nil => intro i _ hi; simp at hi
  | cons ob rest ih =>
    intro i hb hi
    cases i with
    | zero =>
      have hob : ob = none := by simpa [binAt] using hb
      subst hob
      simp [occCount_cons_some, occCount_cons_none]
    | succ i =>
      have hb' : binAt rest i = none := by simpa [binAt, List.getD_cons_succ] using hb
      have hi' : i < rest.length := by simpa using hi
      cases ob with
      | none => simpa [occCount_cons_none] using ih hb' hi'
      | some e' => simp only [List.set_cons_succ, occCount_cons_some, ih hb' hi']

theorem occCount_set_some_some {V : Type} {e e' : RHEntry V} :
    ∀ {bins : List (Option (RHEntry V))} {i : Nat}, binAt bins i = some e' →
    occCount (bins.set i (some e)) = occCount bins := by
  intro bins
  induction bins with
  | nil => intro i hb; simp [binAt] at hb
  | cons ob rest ih =>
    intro i hb
    cases i with
    | zero =>
      have hob : ob = some e' := by simpa [binAt] using hb
      subst hob
      simp [occCount_cons_some]
    | succ i =>
      have hb' : binAt rest i = some e' := by simpa [binAt, List.getD_cons_succ] using hb
      cases ob with
      | none => simpa [occCount_cons_none] using ih hb'
      | some x => simp only [List.set_cons_succ, occCount_cons_some, ih hb']

theorem occCount_set_some_none {V : Type} {e : RHEntry V} :
    ∀ {bins : List (Option (RHEntry V))} {i : Nat}, binAt bins i = some e →
    occCount bins = occCount (bins.set i none) + 1 := by
  intro bins
  induction bins with
  | nil => intro i hb; simp [binAt] at hb
  | cons ob rest ih =>
    intro i hb
    cases i with
    | zero =>
      have hob : ob = some e := by simpa [binAt] using hb
      subst hob
      simp [occCount_cons_some, occCount_cons_none]
    | succ i =>
      have hb' : binAt rest i = some e := by simpa [binAt, List.getD_cons_succ] using hb
      cases ob with
      | none => simpa [occCount_cons_none] using ih hb'
      | some x => simp only [List.set_cons_succ, occCount_cons_some, ih hb']

theorem occCount_lt_exists_none {V : Type} :
    ∀ {bins : List (Option (RHEntry V))}, occCount bins < bins.length →
    ∃ i, i < bins.length ∧ binAt bins i = none := by
  intro bins
  induction bins with
  | nil => intro h; simp [occCount] at h
  | cons ob rest ih =>
    intro h
    cases ob with
    | none => exact ⟨0, by simp, by simp [binAt]⟩
    | some e =>
      rw [occCount_cons_some] at h
      obtain ⟨i, hi, hb⟩ := ih (by simpa using h)
      exact ⟨i + 1, by simpa using Nat.succ_lt_succ hi,
        by simpa [binAt, List.getD_cons_succ] using hb⟩

theorem pslSum_cons_none {V : Type} (rest : List (Option (RHEntry V))) :
    pslSum (none :: rest) = pslSum rest := by
  simp [pslSum]

theorem pslSum_cons_some {V : Type} (e : RHEntry V) (rest : List (Option (RHEntry V))) :
    pslSum (some e :: rest) = e.psl + pslSum rest := by
  simp [pslSum]

theorem pslSum_set_none_some {V : Type} {e : RHEntry V} :
    ∀ {bins : List (Option (RHEntry V))} {i : Nat}, binAt bins i = none → i < bins.length →
    pslSum (bins.set i (some e)) = pslSum bins + e.psl := by
  intro bins
  induction bins with
  | nil => intro i _ hi; simp at hi
  | cons ob rest ih =>
    intro i hb hi
    cases i with
    | zero =>
      have hob : ob = none := by simpa [binAt] using hb
      subst hob
      simp [pslSum_cons_some, pslSum_cons_none]
      omega
    | succ i =>
      have hb' : binAt rest i = none := by simpa [binAt, List.getD_cons_succ] using hb
      have hi' : i < rest.length := by simpa using hi
      cases ob with
      | none => simpa [pslSum_cons_none] using ih hb' hi'
      | some x =>
        simp only [List.set_cons_succ, pslSum_cons_some, ih hb' hi']
        omega

theorem pslSum_set_some_none {V : Type} {e : RHEntry V} :
    ∀ {bins : List (Option (RHEntry V))} {i : Nat}, binAt bins i = some e →
    pslSum bins = pslSum (bins.set i none) + e.psl := by
  intro bins
  induction bins with
  | nil => intro i hb; simp [binAt] at hb
  | cons ob rest ih =>
    intro i hb
    cases i with
    | zero =>
      have hob : ob = some e := by simpa [binAt] using hb
      subst hob
      simp [pslSum_cons_some, pslSum_cons_none]
      omega
    | succ i =>
      have hb' : binAt rest i = some e := by simpa [binAt, List.getD_cons_succ] using hb
      cases ob with
      | none => simpa [pslSum_cons_none] using ih hb'
      | some x =>
        simp only [List.set_cons_succ, pslSum_cons_some, ih hb']
        omega

theorem set_none_of_binAt_none {V : Type} :
    ∀ {bins : List (Option (RHEntry V))} {i : Nat}, binAt bins i = none →
    bins.set i none = bins := by
  intro bins
  induction bins with
  | nil => intro i _; rfl
  | cons ob rest ih =>
    intro i hb
    cases i with
    | zero =>
      have hob : ob = none := by simpa [binAt] using hb
      subst hob
      rfl
    | succ i =>
      have hb' : binAt rest i = none := by simpa [binAt, List.getD_cons_succ] using hb
      simp [List.set_cons_succ, ih hb']

theorem lookupBins_eq_none_intro {V : Type} {k : List Nat} :
    ∀ {bins : List (Option (RHEntry V))},
    (∀ e : RHEntry V, some e ∈ bins → e.key ≠ k) → lookupBins bins k = none := by
  intro bins
  induction bins with
  | nil => intro _; rfl
  | cons ob rest ih =>
    intro h
    cases ob with
    | none =>
      rw [lookupBins_cons_none]
      exact ih (fun e he => h e (List.mem_cons_of_mem _ he))
    | some e =>
      rw [lookupBins_cons_some, if_neg (h e (List.mem_cons_self _ _))]
      exact ih (fun e' he => h e' (List.mem_cons_of_mem _ he))

theorem lookupBins_set_preserve {V : Type} {k' : List Nat} {ob' : Option (RHEntry V)} :
    ∀ {bins : List (Option (RHEntry V))} {i : Nat},
    onBin (binAt bins i) (fun e => e.key ≠ k') → onBin ob' (fun e => e.key ≠ k') →
    lookupBins (bins.set i ob') k' = lookupBins bins k' := by
  intro bins
  induction bins with
  | nil => intro i _ _; rfl
  | cons ob rest ih =>
    intro i hold hnew
    cases i with
    | zero =>
      have hold' : onBin ob (fun e => e.key ≠ k') := by simpa [binAt] using hold
      simp only [List.set_cons_zero]
      cases ob with
      | none =>
        cases ob' with
        | none => rfl
        | some e' => rw [lookupBins_cons_some, if_neg hnew, lookupBins_cons_none]
      | some e =>
        cases ob' with
        | none => rw [lookupBins_cons_none, lookupBins_cons_some, if_neg hold']
        | some e' =>
          rw [lookupBins_cons_some, if_neg hnew, lookupBins_cons_some, if_neg hold']
    | succ i =>
      have hold' : onBin (binAt rest i) (fun e => e.key ≠ k') := by
        simpa [binAt, List.getD_cons_succ] using hold
      simp only [List.set_cons_succ]
      cases ob with
      | none => rw [lookupBins_cons_none, lookupBins_cons_none]; exact ih hold' hnew
      | some e =>
        rw [lookupBins_cons_some, lookupBins_cons_some]
        by_cases hk : e.key = k'
        · rw [if_pos hk, if_pos hk]
        · rw [if_neg hk, if_neg hk]; exact ih hold' hnew

/-! ## Distance arithmetic for successor slots -/

theorem dist_succ_of_lt {cap h i : Nat} (hh : h < cap) (hi : i < cap)
    (hd : (i + cap - h) % cap + 1 < cap) :
    ((i + 1) % cap + cap - h) % cap = (i + cap - h) % cap + 1 := by
  have hid : (h + (i + cap - h) % cap) % cap = i := mod_cap_add_dist hh hi
  have hsucc : (i + 1) % cap = (h + ((i + cap - h) % cap + 1)) % cap := by
    conv_lhs => rw [← hid]
    rw [mod_cap_succ]
  rw [hsucc, mod_cap_dist_add hh hd]

theorem mod_cap_succ_ne {cap i : Nat} (hi : i < cap) (hcap : 2 ≤ cap) :
    (i + 1) % cap ≠ i := by
  rcases lt_or_ge (i + 1) cap with hlt | hge
  · rw [Nat.mod_eq_of_lt hlt]; omega
  · have : i + 1 = cap := by omega
    rw [this, Nat.mod_self]; omega

/-- Placing the carried entry into an empty bin at its invariant position
restores the full Robin-Hood invariant and adds its binding. -/
theorem mod_cap_succ_pred {cap s : Nat} (hs : s < cap) :
    ((s + 1) % cap + cap - 1) % cap = s := by
  have hc : 0 < cap := by omega
  rcases lt_or_ge (s + 1) cap with hlt | hge
  · rw [Nat.mod_eq_of_lt hlt]
    have h1 : s + 1 + cap - 1 = s + cap := by omega
    rw [h1, Nat.add_mod_right, Nat.mod_eq_of_lt hs]
  · have hsc : s + 1 = cap := by omega
    rw [hsc, Nat.mod_self]
    have h1 : 0 + cap - 1 = cap - 1 := by omega
    have h2 : (cap - 1) % cap = cap - 1 := Nat.mod_eq_of_lt (by omega)
    rw [h1, h2]
    omega

theorem mod_cap_pred_succ {cap i : Nat} (hi : i < cap) :
    ((i + cap - 1) % cap + 1) % cap = i := by
  have hc : 0 < cap := by omega
  rcases Nat.eq_zero_or_pos i with hz | hp
  · subst hz
    have h1 : 0 + cap - 1 = cap - 1 := by omega
    have hm : (cap - 1) % cap = cap - 1 := Nat.mod_eq_of_lt (by omega)
    rw [h1, hm]
    have h2 : cap - 1 + 1 = cap := by omega
    rw [h2, Nat.mod_self]
  · have h1 : (i + cap - 1) % cap = i - 1 := by
      have h2 : i + cap - 1 = (i - 1) + cap := by omega
      rw [h2, Nat.add_mod_right, Nat.mod_eq_of_lt (by omega)]
    rw [h1]
    have h2 : i - 1 + 1 = i := by omega
    rw [h2, Nat.mod_eq_of_lt hi]

theorem occ_lt_of_none {V : Type} :
    ∀ {bins : List (Option (RHEntry V))} {j : Nat}, binAt bins j = none →
    j < bins.length → occCount bins < bins.length := by
  intro bins
  induction bins with
  | nil => intro j _ hj; simp at hj
  | cons ob rest ih =>
    intro j hb hj
    cases j with
    | zero =>
      have hob : ob = none := by simpa [binAt] using hb
      subst hob
      rw [occCount_cons_none]
      have := occCount_le rest
      simp only [List.length_cons]
      omega
    | succ j =>
      have hb' : binAt rest j = none := by simpa [binAt, List.getD_cons_succ] using hb
      have hj' : j < rest.length := by simpa using hj
      have := ih hb' hj'
      cases ob with
      | none => rw [occCount_cons_none]; simp only [List.length_cons]; omega
      | some e => rw [occCount_cons_some]; simp only [List.length_cons]; omega

theorem lookupBins_eq_none_of_slots {V : Type} {k : List Nat}
    {bins : List (Option (RHEntry V))}
    (h : ∀ j, j < bins.length → onBin (binAt bins j) (fun e => e.key ≠ k)) :
    lookupBins bins k = none := by
  refine lookupBins_eq_none_intro ?_
  intro e he
  obtain ⟨j, hj⟩ := List.getElem?_of_mem he
  have hjlt : j < bins.length := (List.getElem?_eq_some.mp hj).1
  have hb : binAt bins j = some e := by
    rw [binAt_eq_getElem?, hj]
    rfl
  have := h j hjlt
  rw [hb] at this
  exact this

theorem dist_pred {cap h i : Nat} (hh : h < cap) (hi : i < cap)
    (h1 : 1 ≤ ((i + 1) % cap + cap - h) % cap) :
    (i + cap - h) % cap + 1 = ((i + 1) % cap + cap - h) % cap := by
  have hc : 0 < cap := by omega
  have hdlt : (i + cap - h) % cap < cap := Nat.mod_lt _ hc
  have hid : (h + (i + cap - h) % cap) % cap = i := mod_cap_add_dist hh hi
  have hsucc : (i + 1) % cap = (h + ((i + cap - h) % cap + 1)) % cap := by
    conv_lhs => rw [← hid]
    rw [mod_cap_succ]
  by_cases hcase : (i + cap - h) % cap + 1 < cap
  · rw [hsucc, mod_cap_dist_add hh hcase]
  · exfalso
    have hdc : (i + cap - h) % cap + 1 = cap := by omega
    rw [hsucc, hdc, Nat.add_mod_right, Nat.mod_eq_of_lt hh] at h1
    have hz : (h + cap - h) % cap = 0 := by
      have he : h + cap - h = cap := by omega
      rw [he, Nat.mod_self]
    omega

theorem rh_place {V : Type} {bins : List (Option (RHEntry V))} {e : RHEntry V} {i : Nat}
    (hinv : RHInv bins)
    (habsent : lookupBins bins e.key = none)
    (hhash : e.hash = get_hash e.key)
    (hi : i < bins.length)
    (hepsl : e.psl = (i + bins.length - e.hash % bins.length) % bins.length)
    (hW7 : e.psl = 0 ∨ someBin (binAt bins ((i + bins.length - 1) % bins.length))
        (fun es => e.psl - 1 ≤ es.psl))
    (hb : binAt bins i = none) :
    RHInv (bins.set i (some e)) ∧ RHZ (bins.set i (some e)) ∧
    occCount (bins.set i (some e)) = occCount bins + 1 ∧
    ∀ k', lookupBins (bins.set i (some e)) k' =
      if k' = e.key then some e.value else lookupBins bins k' := by
  have hlen : 0 < bins.length := hinv.cap_pos
  refine ⟨⟨?_, ?_, ?_, ?_⟩, ?_, occCount_set_none_some hb hi, ?_⟩
  · rw [List.length_set]; exact hinv.1
  · -- hash and psl definition clause
    intro s hs
    simp only [List.length_set] at hs ⊢
    by_cases hsi : s = i
    · subst hsi
      rw [binAt_set_self hi]
      exact ⟨hhash, hepsl⟩
    · rw [binAt_set_ne (fun h => hsi h.symm)]
      exact hinv.2.1 s hs
  · -- local Robin-Hood clause
    intro s hs
    simp only [List.length_set] at hs ⊢
    by_cases hsucc_i : (s + 1) % bins.length = i
    · have hs_eq : s = (i + bins.length - 1) % bins.length := by
        have h1 := @mod_cap_succ_pred bins.length s hs
        rw [hsucc_i] at h1
        exact h1.symm
      rw [hsucc_i, binAt_set_self hi]
      intro hpe
      rcases hW7 with h0 | hW
      · omega
      · obtain ⟨e', hb', hp'⟩ := someBin_elim hW
        by_cases hsi : s = i
        · exfalso
          rw [← hs_eq, hsi, hb] at hb'
          exact absurd hb' (by simp)
        · refine someBin_intro ?_ hp'
          rw [binAt_set_ne (fun h => hsi h.symm), hs_eq]
          exact hb'
    · rw [binAt_set_ne (fun h => hsucc_i h.symm)]
      by_cases hsi : s = i
      · subst hsi
        have h2 := hinv.2.2.1 s hs
        cases hsb : binAt bins ((s + 1) % bins.length) with
        | none => exact True.intro
        | some q =>
          intro hq1
          rw [hsb] at h2
          have h3 := h2 hq1
          rw [hb] at h3
          exact h3.elim
      · rw [binAt_set_ne (fun h => hsi h.symm)]
        exact hinv.2.2.1 s hs
  · -- distinct keys clause
    intro s hs t ht
    simp only [List.length_set] at hs ht
    by_cases hsi : s = i <;> by_cases hti : t = i
    · subst hsi; subst hti
      rw [binAt_set_self hi]
      intro hne
      exact absurd rfl hne
    · subst hsi
      rw [binAt_set_self hi, binAt_set_ne (fun h => hti h.symm)]
      cases hbt : binAt bins t with
      | none => exact True.intro
      | some et =>
        intro _ heq
        exact lookupBins_none_key habsent et (binAt_some_mem hbt) heq.symm
    · subst hti
      rw [binAt_set_self hi, binAt_set_ne (fun h => hsi h.symm)]
      cases hbs : binAt bins s with
      | none => exact True.intro
      | some es =>
        intro _ heq
        exact lookupBins_none_key habsent es (binAt_some_mem hbs) heq
    · rw [binAt_set_ne (fun h => hsi h.symm), binAt_set_ne (fun h => hti h.symm)]
      exact hinv.2.2.2 s hs t ht
  · -- the occupancy fact RHZ
    by_cases hfull : occCount bins + 1 < bins.length
    · exact Or.inl (by rw [occCount_set_none_some hb hi, List.length_set]; exact hfull)
    · by_cases hlen1 : bins.length = 1
      · refine Or.inr ⟨i, by rw [List.length_set]; exact hi, ?_⟩
        refine someBin_intro (binAt_set_self hi (some e)) ?_
        rw [hepsl, hlen1, Nat.mod_one]
      · have hcap2 : 2 ≤ bins.length := by omega
        have hne : (i + 1) % bins.length ≠ i := mod_cap_succ_ne hi hcap2
        cases hq : binAt bins ((i + 1) % bins.length) with
        | none =>
          refine Or.inl ?_
          have hq' : binAt (bins.set i (some e)) ((i + 1) % bins.length) = none := by
            rw [binAt_set_ne (fun h => hne h.symm)]
            exact hq
          have := occ_lt_of_none hq' (by rw [List.length_set]; exact Nat.mod_lt _ hlen)
          exact this
        | some q =>
          have h2 := hinv.2.2.1 i hi
          rw [hq] at h2
          have hq0 : q.psl = 0 := by
            by_contra hq1
            have h3 := h2 (by omega)
            rw [hb] at h3
            exact h3.elim
          refine Or.inr ⟨(i + 1) % bins.length,
            by rw [List.length_set]; exact Nat.mod_lt _ hlen, ?_⟩
          refine someBin_intro ?_ hq0
          rw [binAt_set_ne (fun h => hne h.symm)]
          exact hq
  · -- content update
    intro k'
    by_cases hk' : k' = e.key
    · subst hk'
      rw [if_pos rfl]
      refine lookupBins_of_binAt (binAt_set_self hi (some e)) rfl ?_
      intro j hj hji
      rw [List.length_set] at hj
      rw [binAt_set_ne (fun h => hji h.symm)]
      cases hbj : binAt bins j with
      | none => exact True.intro
      | some ej => exact lookupBins_none_key habsent ej (binAt_some_mem hbj)
    · rw [if_neg hk']
      refine lookupBins_set_preserve ?_ ?_
      · rw [hb]; exact True.intro
      · exact fun heq => hk' heq.symm

/-- Swapping the carried entry into an occupied, richer bin preserves the
full Robin-Hood invariant; the displaced entry's binding leaves the array
and the carried entry's binding enters it. -/
theorem rh_swap {V : Type} {bins : List (Option (RHEntry V))} {e b : RHEntry V} {i : Nat}
    (hinv : RHInv bins)
    (habsent : lookupBins bins e.key = none)
    (hhash : e.hash = get_hash e.key)
    (hi : i < bins.length)
    (hepsl : e.psl = (i + bins.length - e.hash % bins.length) % bins.length)
    (hW7 : e.psl = 0 ∨ someBin (binAt bins ((i + bins.length - 1) % bins.length))
        (fun es => e.psl - 1 ≤ es.psl))
    (hb : binAt bins i = some b)
    (hswap : b.psl < e.psl) :
    RHInv (bins.set i (some e)) ∧
    lookupBins (bins.set i (some e)) b.key = none ∧
    occCount (bins.set i (some e)) = occCount bins ∧
    (∀ k', k' ≠ b.key → lookupBins (bins.set i (some e)) k' =
      if k' = e.key then some e.value else lookupBins bins k') ∧
    lookupBins bins b.key = some b.value := by
  have hlen : 0 < bins.length := hinv.cap_pos
  have hbk_ne : b.key ≠ e.key := lookupBins_none_key habsent b (binAt_some_mem hb)
  have huniq_b : ∀ j, j < bins.length → j ≠ i →
      onBin (binAt bins j) (fun ej => ej.key ≠ b.key) := by
    intro j hj hji
    cases hbj : binAt bins j with
    | none => exact True.intro
    | some ej => exact hinv.key_ne hji hbj hb
  refine ⟨⟨?_, ?_, ?_, ?_⟩, ?_, occCount_set_some_some hb, ?_, ?_⟩
  · rw [List.length_set]; exact hinv.1
  · intro s hs
    simp only [List.length_set] at hs ⊢
    by_cases hsi : s = i
    · subst hsi
      rw [binAt_set_self hi]
      exact ⟨hhash, hepsl⟩
    · rw [binAt_set_ne (fun h => hsi h.symm)]
      exact hinv.2.1 s hs
  · intro s hs
    simp only [List.length_set] at hs ⊢
    by_cases hsucc_i : (s + 1) % bins.length = i
    · have hs_eq : s = (i + bins.length - 1) % bins.length := by
        have h1 := @mod_cap_succ_pred bins.length s hs
        rw [hsucc_i] at h1
        exact h1.symm
      rw [hsucc_i, binAt_set_self hi]
      intro hpe
      by_cases hsi : s = i
      · subst hsi
        exact someBin_intro (binAt_set_self hi (some e)) (by omega)
      · rcases hW7 with h0 | hW
        · omega
        · obtain ⟨e', hb', hp'⟩ := someBin_elim hW
          refine someBin_intro ?_ hp'
          rw [binAt_set_ne (fun h => hsi h.symm), hs_eq]
          exact hb'
    · rw [binAt_set_ne (fun h => hsucc_i h.symm)]
      by_cases hsi : s = i
      · subst hsi
        have h2 := hinv.2.2.1 s hs
        cases hsb : binAt bins ((s + 1) % bins.length) with
        | none => exact True.intro
        | some q =>
          intro hq1
          rw [hsb] at h2
          have h3 := h2 hq1
          rw [hb] at h3
          have h4 : q.psl - 1 ≤ b.psl := h3
          exact someBin_intro (binAt_set_self hi (some e)) (by omega)
      · rw [binAt_set_ne (fun h => hsi h.symm)]
        exact hinv.2.2.1 s hs
  · intro s hs t ht
    simp only [List.length_set] at hs ht
    by_cases hsi : s = i <;> by_cases hti : t = i
    · subst hsi; subst hti
      rw [binAt_set_self hi]
      intro hne
      exact absurd rfl hne
    · subst hsi
      rw [binAt_set_self hi, binAt_set_ne (fun h => hti h.symm)]
      cases hbt : binAt bins t with
      | none => exact True.intro
      | some et =>
        intro _ heq
        exact lookupBins_none_key habsent et (binAt_some_mem hbt) heq.symm
    · subst hti
      rw [binAt_set_self hi, binAt_set_ne (fun h => hsi h.symm)]
      cases hbs : binAt bins s with
      | none => exact True.intro
      | some es =>
        intro _ heq
        exact lookupBins_none_key habsent es (binAt_some_mem hbs) heq
    · rw [binAt_set_ne (fun h => hsi h.symm), binAt_set_ne (fun h => hti h.symm)]
      exact hinv.2.2.2 s hs t ht
  · -- the displaced key vanishes from the array
    refine lookupBins_eq_none_of_slots ?_
    intro j hj
    rw [List.length_set] at hj
    by_cases hji : j = i
    · subst hji
      rw [binAt_set_self hj]
      exact fun h => hbk_ne (h ▸ rfl)
    · rw [binAt_set_ne (fun h => hji h.symm)]
      exact huniq_b j hj hji
  · -- content update away from the displaced key
    intro k' hk'b
    by_cases hk' : k' = e.key
    · subst hk'
      rw [if_pos rfl]
      refine lookupBins_of_binAt (binAt_set_self hi (some e)) rfl ?_
      intro j hj hji
      rw [List.length_set] at hj
      rw [binAt_set_ne (fun h => hji h.symm)]
      cases hbj : binAt bins j with
      | none => exact True.intro
      | some ej => exact lookupBins_none_key habsent ej (binAt_some_mem hbj)
    · rw [if_neg hk']
      refine lookupBins_set_preserve ?_ ?_
      · rw [hb]
        exact fun h => hk'b h.symm
      · exact fun heq => hk' heq.symm
  · -- the displaced entry was the unique holder of its key
    exact lookupBins_of_binAt hb rfl huniq_b

/-- The Robin-Hood displacement walk of `hashmap_insert_no_resize`, for a
probe key that is not stored anywhere on the remaining walk: the walk ends
in an empty bin, preserves the layout invariant and the occupancy fact, and
adds exactly the binding of the carried entry. -/
theorem insLoop_walk {V : Type} (k : List Nat) (v : V) :
    ∀ (fuel : Nat) (bins : List (Option (RHEntry V))) (e : RHEntry V) (n : Nat),
    RHInv bins →
    lookupBins bins e.key = none →
    e.hash = get_hash e.key →
    e.psl = ((get_hash k % bins.length + n) % bins.length + bins.length -
      e.hash % bins.length) % bins.length →
    (e.psl = 0 ∨ someBin (binAt bins
        (((get_hash k % bins.length + n) % bins.length + bins.length - 1) % bins.length))
        (fun es => e.psl - 1 ≤ es.psl)) →
    e.psl ≤ n →
    (∀ d, n ≤ d → d < bins.length →
      onBin (binAt bins ((get_hash k % bins.length + d) % bins.length))
        (fun es => es.key ≠ k)) →
    (∃ d, n ≤ d ∧ d < bins.length ∧
      binAt bins ((get_hash k % bins.length + d) % bins.length) = none) →
    bins.length + 1 ≤ fuel + n →
    RHInv (insLoop (get_hash k) k v fuel bins e
      ((get_hash k % bins.length + n) % bins.length)).1 ∧
    RHZ (insLoop (get_hash k) k v fuel bins e
      ((get_hash k % bins.length + n) % bins.length)).1 ∧
    (insLoop (get_hash k) k v fuel bins e
      ((get_hash k % bins.length + n) % bins.length)).2 = true ∧
    occCount (insLoop (get_hash k) k v fuel bins e
      ((get_hash k % bins.length + n) % bins.length)).1 = occCount bins + 1 ∧
    ∀ k', lookupBins (insLoop (get_hash k) k v fuel bins e
      ((get_hash k % bins.length + n) % bins.length)).1 k' =
      if k' = e.key then some e.value else lookupBins bins k' := by
  intro fuel
  induction fuel with
  | zero =>
    intro bins e n _ _ _ _ _ _ _ hWT hfuel
    obtain ⟨d, hnd, hdlen, _⟩ := hWT
    exact absurd hfuel (by omega)
  | succ f ih =>
    intro bins e n hinv habsent hhash hepsl hW7 hpsl_le hseg hWT hfuel
    obtain ⟨d, hnd, hdlen, hdempty⟩ := hWT
    have hlen : 0 < bins.length := by omega
    have hh0 : get_hash k % bins.length < bins.length := Nat.mod_lt _ hlen
    have hpos : (get_hash k % bins.length + n) % bins.length < bins.length :=
      Nat.mod_lt _ hlen
    unfold insLoop
    cases hb : binAt bins ((get_hash k % bins.length + n) % bins.length) with
    | none =>
      simp only [hb]
      have hplace := rh_place hinv habsent hhash hpos hepsl hW7 hb
      exact ⟨hplace.1, hplace.2.1, by trivial, hplace.2.2.1, hplace.2.2.2⟩
    | some b =>
      simp only [hb]
      have hnlen : n < bins.length := by omega
      have hsegn := hseg n le_rfl hnlen
      rw [hb] at hsegn
      have hbk : b.key ≠ k := hsegn
      rw [if_neg (fun hc => hbk hc.2)]
      have hnd' : n < d := by
        rcases Nat.lt_or_ge n d with h | h
        · exact h
        · exfalso
          have hdn : n = d := by omega
          rw [← hdn, hb] at hdempty
          exact absurd hdempty (by simp)
      have hepsl_lt : e.psl < bins.length := by rw [hepsl]; exact Nat.mod_lt _ hlen
      have hb_hp := hinv.hash_psl hb
      by_cases hswap : b.psl < e.psl
      · -- displacement step
        simp only [if_pos hswap]
        have hrh := rh_swap hinv habsent hhash hpos hepsl hW7 hb hswap
        have hbk_ne : b.key ≠ e.key := lookupBins_none_key habsent b (binAt_some_mem hb)
        have hlenset :
            (bins.set ((get_hash k % bins.length + n) % bins.length) (some e)).length =
            bins.length := List.length_set _ _ _
        have hposeq : ((get_hash k % bins.length + n) % bins.length + 1) % bins.length =
            (get_hash k %
              (bins.set ((get_hash k % bins.length + n) % bins.length) (some e)).length +
              (n + 1)) %
              (bins.set ((get_hash k % bins.length + n) % bins.length) (some e)).length := by
          rw [hlenset]
          exact mod_cap_succ _ _ _
        have hih := ih (bins.set ((get_hash k % bins.length + n) % bins.length) (some e))
          ⟨b.key, b.value, b.hash, b.psl + 1⟩ (n + 1) hrh.1 hrh.2.1 hb_hp.1
          (by
            simp only [List.length_set]
            show b.psl + 1 = ((get_hash k % bins.length + (n + 1)) % bins.length +
              bins.length - b.hash % bins.length) % bins.length
            rw [← mod_cap_succ]
            have hd1 : ((get_hash k % bins.length + n) % bins.length + bins.length -
                b.hash % bins.length) % bins.length + 1 < bins.length := by
              rw [← hb_hp.2]
              omega
            rw [dist_succ_of_lt (Nat.mod_lt _ hlen) hpos hd1, ← hb_hp.2])
          (by
            refine Or.inr ?_
            simp only [List.length_set]
            rw [← mod_cap_succ, mod_cap_succ_pred hpos]
            refine someBin_intro (binAt_set_self hpos (some e)) ?_
            show b.psl + 1 - 1 ≤ e.psl
            omega)
          (by show b.psl + 1 ≤ n + 1; omega)
          (by
            intro d' hd'1 hd'2
            rw [hlenset] at hd'2
            simp only [List.length_set]
            have hne : (get_hash k % bins.length + d') % bins.length ≠
                (get_hash k % bins.length + n) % bins.length := by
              intro heq
              have := mod_cap_slot_inj hh0 (by omega : d' < bins.length) hnlen heq
              omega
            rw [binAt_set_ne (fun h => hne h.symm)]
            exact hseg d' (by omega) hd'2)
          (by
            refine ⟨d, by omega, by rw [hlenset]; exact hdlen, ?_⟩
            simp only [List.length_set]
            have hne : (get_hash k % bins.length + d) % bins.length ≠
                (get_hash k % bins.length + n) % bins.length := by
              intro heq
              have := mod_cap_slot_inj hh0 hdlen hnlen heq
              omega
            rw [binAt_set_ne (fun h => hne h.symm)]
            exact hdempty)
          (by rw [hlenset]; omega)
        rw [← hposeq] at hih
        refine ⟨hih.1, hih.2.1, hih.2.2.1, ?_, ?_⟩
        · rw [hih.2.2.2.1, hrh.2.2.1]
        · intro k'
          have hc := hih.2.2.2.2 k'
          by_cases hk'e : k' = e.key
          · rw [if_pos hk'e]
            have hk'b_ne : k' ≠ b.key := fun h => hbk_ne (h.symm.trans hk'e)
            have hcb : ¬ (k' = (⟨b.key, b.value, b.hash, b.psl + 1⟩ : RHEntry V).key) :=
              hk'b_ne
            rw [if_neg hcb] at hc
            have h2 := hrh.2.2.2.1 k' hk'b_ne
            rw [if_pos hk'e] at h2
            exact hc.trans h2
          · rw [if_neg hk'e]
            by_cases hk'b : k' = b.key
            · have hcb : k' = (⟨b.key, b.value, b.hash, b.psl + 1⟩ : RHEntry V).key := hk'b
              rw [if_pos hcb] at hc
              rw [hc, hk'b, hrh.2.2.2.2]
            · have hcb : ¬ (k' = (⟨b.key, b.value, b.hash, b.psl + 1⟩ : RHEntry V).key) :=
                hk'b
              rw [if_neg hcb] at hc
              have h2 := hrh.2.2.2.1 k' hk'b
              rw [if_neg hk'e] at h2
              exact hc.trans h2
      · -- the incumbent is at least as poor: keep carrying
        simp only [if_neg hswap]
        have hposeq : ((get_hash k % bins.length + n) % bins.length + 1) % bins.length =
            (get_hash k % bins.length + (n + 1)) % bins.length :=
          mod_cap_succ _ _ _
        have hih := ih bins ⟨e.key, e.value, e.hash, e.psl + 1⟩ (n + 1) hinv habsent hhash
          (by
            show e.psl + 1 = ((get_hash k % bins.length + (n + 1)) % bins.length +
              bins.length - e.hash % bins.length) % bins.length
            rw [← mod_cap_succ]
            have hd1 : ((get_hash k % bins.length + n) % bins.length + bins.length -
                e.hash % bins.length) % bins.length + 1 < bins.length := by
              rw [← hepsl]
              omega
            rw [dist_succ_of_lt (Nat.mod_lt _ hlen) hpos hd1, ← hepsl])
          (by
            refine Or.inr ?_
            rw [← mod_cap_succ, mod_cap_succ_pred hpos]
            refine someBin_intro hb ?_
            show e.psl + 1 - 1 ≤ b.psl
            omega)
          (by show e.psl + 1 ≤ n + 1; omega)
          (fun d' hd'1 hd'2 => hseg d' (by omega) hd'2)
          ⟨d, by omega, hdlen, hdempty⟩
          (by omega)
        rw [← hposeq] at hih
        exact hih

/-- The walk of `hashmap_insert_no_resize` for a key that is already stored:
under the layout invariant the walk reaches the key's bin without any
displacement and updates its value in place, leaving `length` untouched. -/
theorem insLoop_dup {V : Type} (k : List Nat) (v : V) {bins : List (Option (RHEntry V))}
    {j : Nat} {e0 : RHEntry V}
    (hinv : RHInv bins) (hb : binAt bins j = some e0) (hk : e0.key = k) :
    ∀ fuel n, n ≤ e0.psl → e0.psl - n < fuel →
    insLoop (get_hash k) k v fuel bins ⟨k, v, get_hash k, n⟩
      ((get_hash k % bins.length + n) % bins.length) =
    (bins.set j (some ⟨e0.key, v, e0.hash, e0.psl⟩), false) := by
  have hlen : 0 < bins.length := hinv.cap_pos
  have hh := hinv.hash_psl hb
  have hhash0 : e0.hash = get_hash k := by rw [hh.1, hk]
  have hslotj : (get_hash k % bins.length + e0.psl) % bins.length = j := by
    rw [← hhash0]; exact hinv.slot_eq hb
  intro fuel
  induction fuel with
  | zero => intro n hn hfuel; exact absurd hfuel (by omega)
  | succ f ih =>
    intro n hn hfuel
    by_cases hcase : n = e0.psl
    · subst hcase
      unfold insLoop
      rw [hslotj]
      simp only [hb]
      rw [if_pos ⟨hhash0, hk⟩]
    · have hlt : n < e0.psl := by omega
      have hcov := hinv.cover hb (e0.psl - n) n (by omega)
      rw [hhash0] at hcov
      obtain ⟨e', hb', hp'⟩ := someBin_elim hcov
      have hne : (get_hash k % bins.length + n) % bins.length ≠ j := by
        intro heq
        rw [← hslotj] at heq
        have := mod_cap_slot_inj (Nat.mod_lt _ hlen)
          (lt_trans hlt (hinv.psl_lt hb)) (hinv.psl_lt hb) heq
        omega
      have hkne : e'.key ≠ k := fun heq => hinv.key_ne hne hb' hb (by rw [heq, hk])
      unfold insLoop
      simp only [hb']
      rw [if_neg (fun hc => hkne hc.2)]
      have hnoswap : ¬ (e'.psl < (⟨k, v, get_hash k, n⟩ : RHEntry V).psl) := by
        show ¬ (e'.psl < n); omega
      simp only [if_neg hnoswap]
      rw [mod_cap_succ]
      exact ih (n + 1) (by omega) (by omega)

/-- Overwriting only the value of an occupied bin preserves the layout
invariant and the occupancy fact. -/
theorem rh_value_update {V : Type} {bins : List (Option (RHEntry V))} {j : Nat}
    {e0 : RHEntry V} (hinv : RHInv bins) (hZ : RHZ bins)
    (hb : binAt bins j = some e0) (v : V) :
    RHInv (bins.set j (some ⟨e0.key, v, e0.hash, e0.psl⟩)) ∧
    RHZ (bins.set j (some ⟨e0.key, v, e0.hash, e0.psl⟩)) ∧
    occCount (bins.set j (some ⟨e0.key, v, e0.hash, e0.psl⟩)) = occCount bins ∧
    ∀ k', lookupBins (bins.set j (some ⟨e0.key, v, e0.hash, e0.psl⟩)) k' =
      if k' = e0.key then some v else lookupBins bins k' := by
  have hlen : 0 < bins.length := hinv.cap_pos
  have hjlt : j < bins.length := binAt_lt_length hb
  have huniq0 : ∀ t, t < bins.length → t ≠ j →
      onBin (binAt bins t) (fun et => et.key ≠ e0.key) := by
    intro t ht htj
    cases hbt : binAt bins t with
    | none => exact True.intro
    | some et => exact hinv.key_ne htj hbt hb
  refine ⟨⟨?_, ?_, ?_, ?_⟩, ?_, occCount_set_some_some hb, ?_⟩
  · rw [List.length_set]; exact hinv.1
  · intro s hs
    simp only [List.length_set] at hs ⊢
    by_cases hsj : s = j
    · subst hsj
      rw [binAt_set_self hjlt]
      have h1 := hinv.hash_psl hb
      exact ⟨h1.1, h1.2⟩
    · rw [binAt_set_ne (fun h => hsj h.symm)]
      exact hinv.2.1 s hs
  · intro s hs
    simp only [List.length_set] at hs ⊢
    have h2 := hinv.2.2.1 s hs
    by_cases hsuccj : (s + 1) % bins.length = j
    · rw [hsuccj, binAt_set_self hjlt]
      intro hp1
      rw [hsuccj, hb] at h2
      have h3 := h2 hp1
      by_cases hsj : s = j
      · rw [hsj]
        exact someBin_intro (binAt_set_self hjlt (some ⟨e0.key, v, e0.hash, e0.psl⟩))
          (by show e0.psl - 1 ≤ e0.psl; omega)
      · obtain ⟨e', hb', hp'⟩ := someBin_elim h3
        refine someBin_intro ?_ hp'
        rw [binAt_set_ne (fun h => hsj h.symm)]
        exact hb'
    · rw [binAt_set_ne (fun h => hsuccj h.symm)]
      cases hq : binAt bins ((s + 1) % bins.length) with
      | none => exact True.intro
      | some q =>
        intro hq1
        rw [hq] at h2
        have h3 := h2 hq1
        by_cases hsj : s = j
        · rw [hsj] at h3
          rw [hb] at h3
          have h4 : q.psl - 1 ≤ e0.psl := h3
          rw [hsj]
          exact someBin_intro (binAt_set_self hjlt (some ⟨e0.key, v, e0.hash, e0.psl⟩))
            (by show q.psl - 1 ≤ e0.psl; omega)
        · obtain ⟨e', hb', hp'⟩ := someBin_elim h3
          refine someBin_intro ?_ hp'
          rw [binAt_set_ne (fun h => hsj h.symm)]
          exact hb'
  · intro s hs t ht
    simp only [List.length_set] at hs ht
    by_cases hsj : s = j <;> by_cases htj : t = j
    · subst hsj; subst htj
      rw [binAt_set_self hjlt]
      intro hne
      exact absurd rfl hne
    · subst hsj
      rw [binAt_set_self hjlt, binAt_set_ne (fun h => htj h.symm)]
      cases hbt : binAt bins t with
      | none => exact True.intro
      | some et =>
        intro hne heq
        have h5 := huniq0 t ht (fun h => htj h)
        rw [hbt] at h5
        exact h5 heq.symm
    · subst htj
      rw [binAt_set_self hjlt, binAt_set_ne (fun h => hsj h.symm)]
      cases hbs : binAt bins s with
      | none => exact True.intro
      | some es =>
        intro hne heq
        have h5 := huniq0 s hs (fun h => hsj h)
        rw [hbs] at h5
        exact h5 heq
    · rw [binAt_set_ne (fun h => hsj h.symm), binAt_set_ne (fun h => htj h.symm)]
      exact hinv.2.2.2 s hs t ht
  · rcases hZ with hocc | ⟨s, hs, hps⟩
    · exact Or.inl (by rw [occCount_set_some_some hb, List.length_set]; exact hocc)
    · refine Or.inr ⟨s, by rw [List.length_set]; exact hs, ?_⟩
      by_cases hsj : s = j
      · subst hsj
        rw [hb] at hps
        have hps0 : e0.psl = 0 := hps
        exact someBin_intro (binAt_set_self hjlt (some ⟨e0.key, v, e0.hash, e0.psl⟩)) hps0
      · obtain ⟨e', hb', hp'⟩ := someBin_elim hps
        refine someBin_intro ?_ hp'
        rw [binAt_set_ne (fun h => hsj h.symm)]
        exact hb'
  · intro k'
    by_cases hk' : k' = e0.key
    · subst hk'
      rw [if_pos rfl]
      refine lookupBins_of_binAt
        (binAt_set_self hjlt (some ⟨e0.key, v, e0.hash, e0.psl⟩)) rfl ?_
      intro t ht htj
      rw [List.length_set] at ht
      rw [binAt_set_ne (fun h => htj h.symm)]
      exact huniq0 t ht htj
    · rw [if_neg hk']
      refine lookupBins_set_preserve ?_ ?_
      · rw [hb]
        exact fun h => hk' h.symm
      · exact fun h => hk' h.symm

/-- `hashmap_insert_no_resize` on a key that is not yet stored, in a table
with at least one free bin: the layout invariant and the occupancy fact are
preserved, the binding is added, and `length` is incremented. -/
theorem hashmap_insert_no_resize_fresh {V : Type} (m : Hashmap V) (k : List Nat) (v : V)
    (hinv : RHInv m.bins) (habs : lookupBins m.bins k = none)
    (hroom : occCount m.bins < m.bins.length) :
    RHInv (hashmap_insert_no_resize m k v).bins ∧
    RHZ (hashmap_insert_no_resize m k v).bins ∧
    occCount (hashmap_insert_no_resize m k v).bins = occCount m.bins + 1 ∧
    (hashmap_insert_no_resize m k v).length = m.length + 1 ∧
    ∀ k', lookupBins (hashmap_insert_no_resize m k v).bins k' =
      if k' = k then some v else lookupBins m.bins k' := by
  have hlen : 0 < m.bins.length := hinv.cap_pos
  have hh0 : get_hash k % m.bins.length < m.bins.length := Nat.mod_lt _ hlen
  have hstart : get_hash k % m.bins.length =
      (get_hash k % m.bins.length + 0) % m.bins.length := by
    rw [Nat.add_zero, Nat.mod_eq_of_lt hh0]
  have hwalk := insLoop_walk k v (m.bins.length + 1) m.bins ⟨k, v, get_hash k, 0⟩ 0
    hinv habs rfl
    (by
      show 0 = ((get_hash k % m.bins.length + 0) % m.bins.length + m.bins.length -
        get_hash k % m.bins.length) % m.bins.length
      rw [Nat.add_zero, Nat.mod_eq_of_lt hh0]
      have h1 : get_hash k % m.bins.length + m.bins.length - get_hash k % m.bins.length =
          m.bins.length := by omega
      rw [h1, Nat.mod_self])
    (Or.inl rfl)
    (by show (0 : Nat) ≤ 0; omega)
    (by
      intro d _ hd2
      cases hbd : binAt m.bins ((get_hash k % m.bins.length + d) % m.bins.length) with
      | none => exact True.intro
      | some es => exact lookupBins_none_key habs es (binAt_some_mem hbd))
    (by
      obtain ⟨jj, hjlt, hjnone⟩ := occCount_lt_exists_none hroom
      refine ⟨(jj + m.bins.length - get_hash k % m.bins.length) % m.bins.length,
        by omega, Nat.mod_lt _ hlen, ?_⟩
      rw [mod_cap_add_dist hh0 hjlt]
      exact hjnone)
    (by omega)
  rw [← hstart] at hwalk
  refine ⟨hwalk.1, hwalk.2.1, hwalk.2.2.2.1, ?_, hwalk.2.2.2.2⟩
  show (if (insLoop (get_hash k) k v (m.bins.length + 1) m.bins ⟨k, v, get_hash k, 0⟩
    (get_hash k % m.bins.length)).2 = true then m.length + 1 else m.length) = m.length + 1
  rw [hwalk.2.2.1]
  simp

/-- `hashmap_insert_no_resize` on a key that is already stored: the value is
updated in place, everything else — layout, occupancy, `length` — is
unchanged. -/
theorem hashmap_insert_no_resize_dup {V : Type} (m : Hashmap V) (k : List Nat) (v : V)
    (hinv : RHInv m.bins) (hZ : RHZ m.bins) {bv : V}
    (hl : lookupBins m.bins k = some bv) :
    RHInv (hashmap_insert_no_resize m k v).bins ∧
    RHZ (hashmap_insert_no_resize m k v).bins ∧
    occCount (hashmap_insert_no_resize m k v).bins = occCount m.bins ∧
    (hashmap_insert_no_resize m k v).length = m.length ∧
    ∀ k', lookupBins (hashmap_insert_no_resize m k v).bins k' =
      if k' = k then some v else lookupBins m.bins k' := by
  have hlen : 0 < m.bins.length := hinv.cap_pos
  have hh0 : get_hash k % m.bins.length < m.bins.length := Nat.mod_lt _ hlen
  obtain ⟨j, e0, hjlt, hbj, hke0, hve0⟩ := lookupBins_some_exists hl
  have hstart : get_hash k % m.bins.length =
      (get_hash k % m.bins.length + 0) % m.bins.length := by
    rw [Nat.add_zero, Nat.mod_eq_of_lt hh0]
  have hdup := insLoop_dup k v hinv hbj hke0 (m.bins.length + 1) 0 (by omega)
    (by have := hinv.psl_lt hbj; omega)
  rw [← hstart] at hdup
  have hval := rh_value_update hinv hZ hbj v
  constructor
  · show RHInv (insLoop (get_hash k) k v (m.bins.length + 1) m.bins ⟨k, v, get_hash k, 0⟩
      (get_hash k % m.bins.length)).1
    rw [hdup]
    exact hval.1
  constructor
  · show RHZ (insLoop (get_hash k) k v (m.bins.length + 1) m.bins ⟨k, v, get_hash k, 0⟩
      (get_hash k % m.bins.length)).1
    rw [hdup]
    exact hval.2.1
  constructor
  · show occCount (insLoop (get_hash k) k v (m.bins.length + 1) m.bins ⟨k, v, get_hash k, 0⟩
      (get_hash k % m.bins.length)).1 = occCount m.bins
    rw [hdup]
    exact hval.2.2.1
  constructor
  · show (if (insLoop (get_hash k) k v (m.bins.length + 1) m.bins ⟨k, v, get_hash k, 0⟩
      (get_hash k % m.bins.length)).2 = true then m.length + 1 else m.length) = m.length
    rw [hdup]
    simp
  · intro k'
    show lookupBins (insLoop (get_hash k) k v (m.bins.length + 1) m.bins
      ⟨k, v, get_hash k, 0⟩ (get_hash k % m.bins.length)).1 k' =
      if k' = k then some v else lookupBins m.bins k'
    rw [hdup]
    have h1 := hval.2.2.2 k'
    by_cases hk' : k' = k
    · rw [if_pos (hk'.trans hke0.symm)] at h1
      rw [if_pos hk']
      exact h1
    · rw [if_neg (fun h => hk' (h.trans hke0))] at h1
      rw [if_neg hk']
      exact h1

/-! ## Resizing: re-insertion into a fresh array -/

theorem binAt_replicate_none {V : Type} (n i : Nat) :
    binAt (List.replicate n (none : Option (RHEntry V))) i = none := by
  rw [binAt_eq_getElem?, List.getElem?_replicate]
  by_cases h : i < n
  · rw [if_pos h]; rfl
  · rw [if_neg h]; rfl

theorem occCount_replicate_none {V : Type} :
    ∀ n, occCount (List.replicate n (none : Option (RHEntry V))) = 0 := by
  intro n
  induction n with
  | zero => rfl
  | succ m ih => rw [List.replicate_succ, occCount_cons_none]; exact ih

theorem lookupBins_replicate_none {V : Type} (n : Nat) (k : List Nat) :
    lookupBins (List.replicate n (none : Option (RHEntry V))) k = none := by
  induction n with
  | zero => rfl
  | succ m ih => rw [List.replicate_succ, lookupBins_cons_none]; exact ih

theorem RHInv_replicate_none {V : Type} {n : Nat} (h : 1 ≤ n) :
    RHInv (List.replicate n (none : Option (RHEntry V))) := by
  refine ⟨by simpa using h, ?_, ?_, ?_⟩
  · intro i _; rw [binAt_replicate_none]; trivial
  · intro i _; rw [binAt_replicate_none]; trivial
  · intro i _ j _; rw [binAt_replicate_none]; trivial

/-- The slot-uniqueness clause of `RHInv`, recast as pairwise key
disjointness of the bin list; this is what the re-insertion fold needs. -/
theorem pairwise_keys_of_RHInv {V : Type} {bins : List (Option (RHEntry V))}
    (hinv : RHInv bins) :
    List.Pairwise (fun ob1 ob2 => ∀ e1 e2 : RHEntry V,
      ob1 = some e1 → ob2 = some e2 → e1.key ≠ e2.key) bins := by
  rw [List.pairwise_iff_getElem]
  intro i j hi hj hij e1 e2 h1 h2
  have hbi : binAt bins i = some e1 := by rw [binAt_of_lt hi, h1]
  have hbj : binAt bins j = some e2 := by rw [binAt_of_lt hj, h2]
  exact hinv.key_ne (by omega) hbi hbj

/-- The re-insertion fold of `hashmap_resize`: starting from a valid
accumulator disjoint from the pending entries, folding
`hashmap_insert_no_resize` over a pairwise-key-distinct bin list adds
exactly its occupied entries, preserves the invariants, and the final
content is the pending bindings overlaid on the accumulator. -/
theorem reinsertAll_spec {V : Type} :
    ∀ (l : List (Option (RHEntry V))) (acc : Hashmap V),
    RHInv acc.bins → RHZ acc.bins → acc.length = occCount acc.bins →
    (∀ e : RHEntry V, some e ∈ l → lookupBins acc.bins e.key = none) →
    List.Pairwise (fun ob1 ob2 => ∀ e1 e2 : RHEntry V,
      ob1 = some e1 → ob2 = some e2 → e1.key ≠ e2.key) l →
    occCount acc.bins + occCount l ≤ acc.bins.length →
    RHInv (reinsertAll l acc).bins ∧ RHZ (reinsertAll l acc).bins ∧
    (reinsertAll l acc).length = occCount (reinsertAll l acc).bins ∧
    occCount (reinsertAll l acc).bins = occCount acc.bins + occCount l ∧
    (reinsertAll l acc).bins.length = acc.bins.length ∧
    ∀ k', lookupBins (reinsertAll l acc).bins k' =
      match lookupBins l k' with
      | some w => some w
      | none => lookupBins acc.bins k' := by
  intro l
  induction l with
  | nil =>
    intro acc hinv hZ hlen _ _ _
    exact ⟨hinv, hZ, hlen, rfl, rfl, fun _ => rfl⟩
  | cons ob rest ih =>
    intro acc hinv hZ hlen hmem hpw hocc
    cases ob with
    | none =>
      have hstep : reinsertAll (none :: rest) acc = reinsertAll rest acc := rfl
      rw [hstep]
      have hI := ih acc hinv hZ hlen
        (fun e he => hmem e (List.mem_cons_of_mem _ he)) hpw.of_cons
        (by rw [occCount_cons_none] at hocc; exact hocc)
      refine ⟨hI.1, hI.2.1, hI.2.2.1, ?_, hI.2.2.2.2.1, ?_⟩
      · rw [occCount_cons_none]; exact hI.2.2.2.1
      · intro k'; rw [lookupBins_cons_none]; exact hI.2.2.2.2.2 k'
    | some bin =>
      have hstep : reinsertAll (some bin :: rest) acc =
          reinsertAll rest (hashmap_insert_no_resize acc bin.key bin.value) := rfl
      rw [hstep]
      obtain ⟨hhead, htail⟩ := List.pairwise_cons.mp hpw
      have habs : lookupBins acc.bins bin.key = none := hmem bin (List.mem_cons_self _ _)
      have hoccc : occCount (some bin :: rest) = occCount rest + 1 := occCount_cons_some _ _
      have hroom : occCount acc.bins < acc.bins.length := by rw [hoccc] at hocc; omega
      have hfresh := hashmap_insert_no_resize_fresh acc bin.key bin.value hinv habs hroom
      have hshape := hashmap_insert_no_resize_shape acc bin.key bin.value
      set acc' := hashmap_insert_no_resize acc bin.key bin.value with hacc'
      have hlen' : acc'.length = occCount acc'.bins := by
        rw [hfresh.2.2.2.1, hfresh.2.2.1, hlen]
      have hmem' : ∀ e : RHEntry V, some e ∈ rest → lookupBins acc'.bins e.key = none := by
        intro e he
        have hne : e.key ≠ bin.key := Ne.symm (hhead (some e) he bin e rfl rfl)
        rw [hfresh.2.2.2.2 e.key, if_neg hne]
        exact hmem e (List.mem_cons_of_mem _ he)
      have hocc' : occCount acc'.bins + occCount rest ≤ acc'.bins.length := by
        rw [hfresh.2.2.1, hshape.1]
        rw [hoccc] at hocc
        omega
      have hI := ih acc' hfresh.1 hfresh.2.1 hlen' hmem' htail hocc'
      refine ⟨hI.1, hI.2.1, hI.2.2.1, ?_, ?_, ?_⟩
      · rw [hI.2.2.2.1, hfresh.2.2.1, hoccc]; omega
      · rw [hI.2.2.2.2.1, hshape.1]
      · intro k'
        rw [hI.2.2.2.2.2 k', lookupBins_cons_some]
        by_cases hk : bin.key = k'
        · rw [if_pos hk]
          have hrest : lookupBins rest k' = none := by
            apply lookupBins_eq_none_intro
            intro e he
            have hne : e.key ≠ bin.key := Ne.symm (hhead (some e) he bin e rfl rfl)
            rw [← hk]; exact hne
          rw [hrest]
          show lookupBins acc'.bins k' = some bin.value
          rw [hfresh.2.2.2.2 k', if_pos hk.symm]
        · rw [if_neg hk]
          cases hr : lookupBins rest k' with
          | some w => simp only [hr]
          | none =>
            simp only [hr]
            show lookupBins acc'.bins k' = lookupBins acc.bins k'
            rw [hfresh.2.2.2.2 k', if_neg (fun h => hk h.symm)]

/-- `hashmap_resize` to an admissible size succeeds and is a pure relayout:
capacity becomes `size`, content, occupancy and `minsize` are unchanged, and
the invariants hold in the result. -/
theorem hashmap_resize_spec {V : Type} (m : Hashmap V) (size : Nat)
    (hinv : RHInv m.bins) (hs1 : 1 ≤ size) (hs2 : size ≤ HASHMAP_MAX) (hocc : occCount m.bins ≤ size) :
    ∃ m', hashmap_resize m size = some m' ∧
      RHInv m'.bins ∧ RHZ m'.bins ∧ m'.length = occCount m'.bins ∧
      occCount m'.bins = occCount m.bins ∧
      m'.bins.length = size ∧ m'.minsize = m.minsize ∧
      ∀ k', lookupBins m'.bins k' = lookupBins m.bins k' := by
  have hng : ¬ (size > HASHMAP_MAX) := by omega
  set acc : Hashmap V :=
    { bins := List.replicate size none, minsize := m.minsize, length := 0 } with hacc
  have hres : hashmap_resize m size = some (reinsertAll m.bins acc) := by
    unfold hashmap_resize
    rw [if_neg hng]
  have hIa : RHInv acc.bins := RHInv_replicate_none hs1
  have hZa : RHZ acc.bins := by
    left
    show occCount (List.replicate size none) < (List.replicate size none).length
    rw [occCount_replicate_none, List.length_replicate]
    omega
  have hlena : acc.length = occCount acc.bins := by
    show 0 = occCount (List.replicate size none)
    rw [occCount_replicate_none]
  have hmema : ∀ e : RHEntry V, some e ∈ m.bins → lookupBins acc.bins e.key = none :=
    fun e _ => lookupBins_replicate_none _ _
  have hocca : occCount acc.bins + occCount m.bins ≤ acc.bins.length := by
    show occCount (List.replicate size none) + occCount m.bins ≤
      (List.replicate size none).length
    rw [occCount_replicate_none, List.length_replicate]
    omega
  have hspec := reinsertAll_spec m.bins acc hIa hZa hlena hmema
    (pairwise_keys_of_RHInv hinv) hocca
  refine ⟨reinsertAll m.bins acc, hres, hspec.1, hspec.2.1, hspec.2.2.1, ?_, ?_, ?_, ?_⟩
  · rw [hspec.2.2.2.1]
    show occCount (List.replicate size none) + occCount m.bins = occCount m.bins
    rw [occCount_replicate_none]
    omega
  · rw [hspec.2.2.2.2.1]
    show (List.replicate size (none : Option (RHEntry V))).length = size
    exact List.length_replicate _ _
  · exact (reinsertAll_shape m.bins acc).2
  · intro k'
    rw [hspec.2.2.2.2.2 k']
    cases hr : lookupBins m.bins k' with
    | some w => simp only [hr]
    | none =>
      simp only [hr]
      exact lookupBins_replicate_none _ _

/-! ## The public insert -/

theorem approx_85_percent_lt_self {c : Nat} (h : 1 ≤ c) : approx_85_percent c < c := by
  show (c * 870) >>> 10 < c
  rw [Nat.shiftRight_eq_div_pow]
  rw [Nat.div_lt_iff_lt_mul (by norm_num)]
  have h2 : (2 : Nat) ^ 10 = 1024 := by norm_num
  rw [h2]
  omega

theorem approx_85_percent_mono {a b : Nat} (h : a ≤ b) :
    approx_85_percent a ≤ approx_85_percent b := by
  show (a * 870) >>> 10 ≤ (b * 870) >>> 10
  simp only [Nat.shiftRight_eq_div_pow]
  exact Nat.div_le_div_right (Nat.mul_le_mul_right _ h)

/-- Unfolding equation for `hashmap_insert` (the lets zeta-reduced away). -/
theorem hashmap_insert_eq {V : Type} (m : Hashmap V) (k : List Nat) (v : V) :
    hashmap_insert m k v =
      if m.length > approx_85_percent m.bins.length then
        match hashmap_resize m
            (min (m.bins.length <<< 1) (m.bins.length + HASHMAP_MAX_GROWTH_STEP)) with
        | none => (none, m)
        | some m' => (some v, hashmap_insert_no_resize m' k v)
      else (some v, hashmap_insert_no_resize m k v) := rfl

/-- `hashmap_insert` below the insertion bound: the call succeeds (no resize
refusal is possible), invariants are preserved, capacity does not shrink,
the key is bound to the new value, all other bindings are kept, and `length`
grows by one exactly when the key was fresh. -/
theorem hashmap_insert_spec {V : Type} (m : Hashmap V) (k : List Nat) (v : V)
    (hfull : RHInvFull m) (hbound : m.length ≤ INSERT_BOUND) :
    ∃ m', hashmap_insert m k v = (some v, m') ∧
      RHInvFull m' ∧
      m'.minsize = m.minsize ∧
      m.bins.length ≤ m'.bins.length ∧
      (∀ k', lookupBins m'.bins k' = if k' = k then some v else lookupBins m.bins k') ∧
      m'.length = (match lookupBins m.bins k with
        | none => m.length + 1
        | some _ => m.length) := by
  obtain ⟨hinv, hZ, hlen⟩ := hfull
  have hcap : 1 ≤ m.bins.length := hinv.cap_pos
  rw [hashmap_insert_eq]
  by_cases hth : m.length > approx_85_percent m.bins.length
  · rw [if_pos hth]
    have hsle : 1 ≤ min (m.bins.length <<< 1) (m.bins.length + HASHMAP_MAX_GROWTH_STEP) := by
      have h2 : m.bins.length <<< 1 = 2 * m.bins.length := by
        rw [Nat.shiftLeft_eq]
        omega
      rw [h2]
      omega
    have hsmax : min (m.bins.length <<< 1) (m.bins.length + HASHMAP_MAX_GROWTH_STEP)
        ≤ HASHMAP_MAX := by
      by_contra hgt
      push_neg at hgt
      have hge : HASHMAP_MAX - HASHMAP_MAX_GROWTH_STEP + 1 ≤ m.bins.length := by
        have := Nat.min_le_right (m.bins.length <<< 1)
          (m.bins.length + HASHMAP_MAX_GROWTH_STEP)
        have hM : (1 : Nat) ≤ HASHMAP_MAX - HASHMAP_MAX_GROWTH_STEP := by
          norm_num [HASHMAP_MAX, HASHMAP_MAX_GROWTH_STEP]
        omega
      have hmono := approx_85_percent_mono hge
      have : INSERT_BOUND ≤ approx_85_percent m.bins.length := hmono
      omega
    have hoccle : occCount m.bins ≤
        min (m.bins.length <<< 1) (m.bins.length + HASHMAP_MAX_GROWTH_STEP) := by
      have h1 := occCount_le m.bins
      omega
    obtain ⟨m₁, hres, hinv₁, hZ₁, hlen₁, hocc₁, hsz₁, hmin₁, hcont₁⟩ :=
      hashmap_resize_spec m _ hinv hsle hsmax hoccle
    rw [hres]
    have hlt : m.bins.length < m₁.bins.length := by
      rw [hsz₁]
      have h2 : m.bins.length <<< 1 = 2 * m.bins.length := by
        rw [Nat.shiftLeft_eq]
        omega
      rw [h2]
      have hG : 1 ≤ HASHMAP_MAX_GROWTH_STEP := by norm_num [HASHMAP_MAX_GROWTH_STEP]
      omega
    have hsh₁ := hashmap_insert_no_resize_shape m₁ k v
    cases hl : lookupBins m.bins k with
    | none =>
      have hl₁ : lookupBins m₁.bins k = none := by rw [hcont₁ k, hl]
      have hroom : occCount m₁.bins < m₁.bins.length := by
        have := occCount_le m.bins
        omega
      have hf := hashmap_insert_no_resize_fresh m₁ k v hinv₁ hl₁ hroom
      refine ⟨_, rfl, ⟨hf.1, hf.2.1, ?_⟩, ?_, ?_, ?_, ?_⟩
      · rw [hf.2.2.2.1, hf.2.2.1, hlen₁]
      · rw [hsh₁.2, hmin₁]
      · rw [hsh₁.1]
        omega
      · intro k'
        rw [hf.2.2.2.2 k', hcont₁ k']
      · rw [hf.2.2.2.1, hlen₁, hocc₁, hlen]
    | some bv =>
      have hl₁ : lookupBins m₁.bins k = some bv := by rw [hcont₁ k, hl]
      have hd := hashmap_insert_no_resize_dup m₁ k v hinv₁ hZ₁ hl₁
      refine ⟨_, rfl, ⟨hd.1, hd.2.1, ?_⟩, ?_, ?_, ?_, ?_⟩
      · rw [hd.2.2.2.1, hd.2.2.1, hlen₁]
      · rw [hsh₁.2, hmin₁]
      · rw [hsh₁.1]
        omega
      · intro k'
        rw [hd.2.2.2.2 k', hcont₁ k']
      · rw [hd.2.2.2.1, hlen₁, hocc₁, hlen]
  · rw [if_neg hth]
    push_neg at hth
    have hsh := hashmap_insert_no_resize_shape m k v
    have hroom : occCount m.bins < m.bins.length := by
      have h85 := approx_85_percent_lt_self hcap
      omega
    cases hl : lookupBins m.bins k with
    | none =>
      have hf := hashmap_insert_no_resize_fresh m k v hinv hl hroom
      refine ⟨_, rfl, ⟨hf.1, hf.2.1, ?_⟩, hsh.2, ?_, hf.2.2.2.2, hf.2.2.2.1⟩
      · rw [hf.2.2.2.1, hf.2.2.1, hlen]
      · rw [hsh.1]
    | some bv =>
      have hd := hashmap_insert_no_resize_dup m k v hinv hZ hl
      refine ⟨_, rfl, ⟨hd.1, hd.2.1, ?_⟩, hsh.2, ?_, hd.2.2.2.2, hd.2.2.2.1⟩
      · rw [hd.2.2.2.1, hd.2.2.1, hlen]
      · rw [hsh.1]

/-! ## Deletion -/

/-- The locate loop of `hashmap_delete` finds a present key: probing at
distance `n` from the home slot of a stored entry reaches exactly that
entry's bin. -/
theorem delLocate_present {V : Type} {bins : List (Option (RHEntry V))} (h : RHInv bins)
    {k : List Nat} {j : Nat} {e : RHEntry V}
    (hb : binAt bins j = some e) (hk : e.key = k) :
    ∀ fuel n, n ≤ e.psl → e.psl - n < fuel →
    delLocate bins (get_hash k) k fuel n ((get_hash k % bins.length + n) % bins.length) =
      some (j, e) := by
  have hh : e.hash = get_hash k := by rw [(h.hash_psl hb).1, hk]
  intro fuel
  induction fuel with
  | zero => intro n hn hfuel; omega
  | succ f ih =>
    intro n hn hfuel
    by_cases hcase : n = e.psl
    · subst hcase
      unfold delLocate
      have hslot : (get_hash k % bins.length + e.psl) % bins.length = j := by
        rw [← hh]; exact h.slot_eq hb
      rw [hslot]
      simp only [hb]
      rw [if_neg (by omega), if_pos ⟨hh, hk⟩]
    · have hlt : n < e.psl := by omega
      have hcov := h.cover hb (e.psl - n) n (by omega)
      rw [hh] at hcov
      obtain ⟨e', hb', hp'⟩ := someBin_elim hcov
      have hne : (get_hash k % bins.length + n) % bins.length ≠ j := by
        intro heq
        have hj : (get_hash k % bins.length + e.psl) % bins.length = j := by
          rw [← hh]; exact h.slot_eq hb
        rw [← hj] at heq
        have := mod_cap_slot_inj (Nat.mod_lt _ h.cap_pos)
          (lt_trans hlt (h.psl_lt hb)) (h.psl_lt hb) heq
        omega
      have hkne : e'.key ≠ k := by
        intro heq
        exact h.key_ne hne hb' hb (by rw [heq, hk])
      unfold delLocate
      simp only [hb']
      rw [if_neg (by omega), if_neg (fun hc => hkne hc.2), mod_cap_succ]
      exact ih (n + 1) (by omega) (by omega)

/-- A `hashmap_resize` call that did succeed is a pure relayout, whatever
the requested size was. -/
theorem hashmap_resize_sound {V : Type} {m m'' : Hashmap V} {size : Nat}
    (hres : hashmap_resize m size = some m'')
    (hinv : RHInv m.bins) (hs1 : 1 ≤ size) (hocc : occCount m.bins ≤ size) :
    RHInv m''.bins ∧ RHZ m''.bins ∧ m''.length = occCount m''.bins ∧
    occCount m''.bins = occCount m.bins ∧ m''.bins.length = size ∧
    m''.minsize = m.minsize ∧
    ∀ k', lookupBins m''.bins k' = lookupBins m.bins k' := by
  have hng : ¬ (size > HASHMAP_MAX) := by
    intro hgt
    rw [hashmap_resize_fail hgt] at hres
    exact absurd hres (by simp)
  obtain ⟨m₁, hres₁, hI₁, hZ₁, hlen₁, hocc₁, hsz₁, hmin₁, hcont₁⟩ :=
    hashmap_resize_spec m size hinv hs1 (by omega) hocc
  rw [hres₁] at hres
  have heq : m₁ = m'' := Option.some.inj hres
  subst heq
  exact ⟨hI₁, hZ₁, hlen₁, hocc₁, hsz₁, hmin₁, hcont₁⟩

theorem approx_40_percent_le_half (c : Nat) : approx_40_percent c ≤ c >>> 1 := by
  show (c * 409) >>> 10 ≤ c >>> 1
  simp only [Nat.shiftRight_eq_div_pow]
  have h1 : c * 409 / 2 ^ 10 ≤ c * 512 / 2 ^ 10 :=
    Nat.div_le_div_right (Nat.mul_le_mul_left _ (by norm_num))
  have h2 : c * 512 / 2 ^ 10 = c / 2 ^ 1 := by
    have h3 : (2 : Nat) ^ 10 = 512 * 2 := by norm_num
    have h4 : (2 : Nat) ^ 1 = 2 := by norm_num
    rw [h3, h4, Nat.mul_comm c 512, Nat.mul_div_mul_left c 2 (by norm_num)]
  omega

theorem onBin_elim {V : Type} {ob : Option (RHEntry V)} {P : RHEntry V → Prop}
    (h : onBin ob P) {e : RHEntry V} (he : ob = some e) : P e := by
  rw [he] at h
  exact h

theorem onBin_intro {V : Type} {ob : Option (RHEntry V)} {P : RHEntry V → Prop}
    (h : ∀ e, ob = some e → P e) : onBin ob P := by
  cases ob with
  | none => trivial
  | some e => exact h e rfl

/-- The backward-shifting loop of `hashmap_delete`, run on the array `B`
whose slot `i` is about to be cleared (`A` is the cleared array).  The
hypotheses are the Robin-Hood layout clauses of `A`, with the local
neighbour clause waived at the hole `i` and replaced by the two-step bound
relating the hole's successor to its predecessor.  The loop restores the
full invariant without changing occupancy or content, in at most
`pslSum A` moves. -/
theorem shiftLoop_spec {V : Type} :
    ∀ (fuel : Nat) (B : List (Option (RHEntry V))) (i : Nat)
    (A : List (Option (RHEntry V))),
    A = B.set i none →
    i < B.length →
    (∀ p, p < B.length → onBin (binAt A p) (fun e =>
      e.hash = get_hash e.key ∧
      e.psl = (p + B.length - e.hash % B.length) % B.length)) →
    (∀ p, p < B.length → p ≠ i →
      onBin (binAt A ((p + 1) % B.length)) (fun q => 1 ≤ q.psl →
        someBin (binAt A p) (fun e' => q.psl - 1 ≤ e'.psl))) →
    (∀ p, p < B.length → ∀ r, r < B.length →
      onBin (binAt A p) (fun e =>
        onBin (binAt A r) (fun e' => p ≠ r → e.key ≠ e'.key))) →
    onBin (binAt A ((i + 1) % B.length)) (fun q => 2 ≤ q.psl →
      someBin (binAt A ((i + B.length - 1) % B.length))
        (fun e' => q.psl - 2 ≤ e'.psl)) →
    pslSum A + 1 ≤ fuel →
    RHInv (shiftLoop fuel B i) ∧
    (shiftLoop fuel B i).length = B.length ∧
    occCount (shiftLoop fuel B i) = occCount A ∧
    ∀ k', lookupBins (shiftLoop fuel B i) k' = lookupBins A k' := by
  intro fuel
  induction fuel with
  | zero => intro B i A hA hi H1 H2 H3 Hg Hfuel; omega
  | succ f ih =>
    intro B i A hA hi H1 H2 H3 Hg Hfuel
    have hAlen : A.length = B.length := by rw [hA]; simp
    have hcap : 1 ≤ B.length := by omega
    have hiA : i < A.length := by omega
    have hAi : binAt A i = none := by rw [hA]; exact binAt_set_self hi none
    cases hAj : binAt A ((i + 1) % B.length) with
    | none =>
      have hstop : shiftLoop (f + 1) B i = A := by
        unfold shiftLoop
        rw [← hA]
        simp only [hAj]
      rw [hstop]
      refine ⟨?_, hAlen, rfl, fun k' => rfl⟩
      refine ⟨by omega, ?_, ?_, ?_⟩
      · rw [hAlen]; exact H1
      · rw [hAlen]
        intro p hp
        by_cases hpi : p = i
        · rw [hpi, hAj]; trivial
        · exact H2 p hp hpi
      · rw [hAlen]; exact H3
    | some q =>
      by_cases hq0 : q.psl = 0
      · have hstop : shiftLoop (f + 1) B i = A := by
          unfold shiftLoop
          rw [← hA]
          simp only [hAj]
          rw [if_pos hq0]
        rw [hstop]
        refine ⟨?_, hAlen, rfl, fun k' => rfl⟩
        refine ⟨by omega, ?_, ?_, ?_⟩
        · rw [hAlen]; exact H1
        · rw [hAlen]
          intro p hp
          by_cases hpi : p = i
          · rw [hpi, hAj]
            intro h1
            omega
          · exact H2 p hp hpi
        · rw [hAlen]; exact H3
      · have hrec : shiftLoop (f + 1) B i =
            shiftLoop f (A.set i (some { q with psl := q.psl - 1 })) ((i + 1) % B.length) := by
          conv_lhs => unfold shiftLoop
          rw [← hA]
          simp only [hAj]
          rw [if_neg hq0]
        rw [hrec]
        have hjlt : (i + 1) % B.length < B.length := Nat.mod_lt _ (by omega)
        have hij : (i + 1) % B.length ≠ i := by
          intro he
          rw [he, hAi] at hAj
          simp at hAj
        have hne_ij : i ≠ (i + 1) % B.length := fun he => hij he.symm
        have hq1 := onBin_elim (H1 ((i + 1) % B.length) hjlt) hAj
        have hhlt : q.hash % B.length < B.length := Nat.mod_lt _ (by omega)
        have hdist : (i + B.length - q.hash % B.length) % B.length + 1 = q.psl := by
          have h1 := dist_pred hhlt hi (by rw [← hq1.2]; omega)
          rw [← hq1.2] at h1
          exact h1
        obtain ⟨A', hA'⟩ : ∃ A', A' =
            (A.set i (some { q with psl := q.psl - 1 })).set ((i + 1) % B.length) none :=
          ⟨_, rfl⟩
        have hA'i : binAt A' i = some { q with psl := q.psl - 1 } := by
          rw [hA', binAt_set_ne hij, binAt_set_self hiA]
        have hA'j : binAt A' ((i + 1) % B.length) = none := by
          rw [hA']
          apply binAt_set_self
          simp only [List.length_set]
          omega
        have hA'other : ∀ p, p ≠ i → p ≠ (i + 1) % B.length →
            binAt A' p = binAt A p := by
          intro p hpi hpj
          rw [hA', binAt_set_ne (fun he => hpj he.symm), binAt_set_ne (fun he => hpi he.symm)]
        have hXj : binAt (A.set i (some { q with psl := q.psl - 1 })) ((i + 1) % B.length)
            = some q := by
          rw [binAt_set_ne hne_ij]
          exact hAj
        have hH1' : ∀ p, p < B.length → onBin (binAt A' p) (fun e =>
            e.hash = get_hash e.key ∧
            e.psl = (p + B.length - e.hash % B.length) % B.length) := by
          intro p hp
          apply onBin_intro
          intro e he
          by_cases hpj : p = (i + 1) % B.length
          · rw [hpj, hA'j] at he; simp at he
          · by_cases hpi : p = i
            · rw [hpi] at he ⊢
              rw [hA'i] at he
              have heq : e = { q with psl := q.psl - 1 } := (Option.some.inj he).symm
              subst heq
              refine ⟨hq1.1, ?_⟩
              show q.psl - 1 = (i + B.length - q.hash % B.length) % B.length
              omega
            · rw [hA'other p hpi hpj] at he
              exact onBin_elim (H1 p hp) he
        have hH2' : ∀ p, p < B.length → p ≠ (i + 1) % B.length →
            onBin (binAt A' ((p + 1) % B.length)) (fun q2 => 1 ≤ q2.psl →
              someBin (binAt A' p) (fun e' => q2.psl - 1 ≤ e'.psl)) := by
          intro p hp hpJ
          apply onBin_intro
          intro q2 hq2
          intro h1
          by_cases hsj : (p + 1) % B.length = (i + 1) % B.length
          · rw [hsj, hA'j] at hq2; simp at hq2
          · by_cases hsi : (p + 1) % B.length = i
            · have hq2_q : q2 = { q with psl := q.psl - 1 } := by
                rw [hsi, hA'i] at hq2
                exact (Option.some.inj hq2).symm
              have hp_eq : p = (i + B.length - 1) % B.length := by
                have h2 := @mod_cap_succ_pred B.length p hp
                rw [hsi] at h2
                exact h2.symm
              have hpi : p ≠ i := by
                intro he
                rw [he] at hsi
                exact hij hsi
              have h2 : 2 ≤ q.psl := by
                have h1' : 1 ≤ q.psl - 1 := by rw [hq2_q] at h1; exact h1
                omega
              have hGq : someBin (binAt A ((i + B.length - 1) % B.length))
                  (fun e' => q.psl - 2 ≤ e'.psl) := onBin_elim Hg hAj h2
              obtain ⟨e', he', hpe'⟩ := someBin_elim hGq
              have hb' : binAt A' p = some e' := by
                rw [hA'other p hpi hpJ, hp_eq]
                exact he'
              refine someBin_intro hb' ?_
              show q2.psl - 1 ≤ e'.psl
              rw [hq2_q]
              show q.psl - 1 - 1 ≤ e'.psl
              omega
            · have hpi : p ≠ i := by
                intro he
                rw [he] at hsj
                exact hsj rfl
              have hq2A : binAt A ((p + 1) % B.length) = some q2 := by
                rw [← hA'other ((p + 1) % B.length) hsi hsj]
                exact hq2
              have hH := onBin_elim (H2 p hp hpi) hq2A h1
              obtain ⟨e', he', hpe'⟩ := someBin_elim hH
              exact someBin_intro (by rw [hA'other p hpi hpJ]; exact he') hpe'
        have hH3' : ∀ p, p < B.length → ∀ r, r < B.length →
            onBin (binAt A' p) (fun e =>
              onBin (binAt A' r) (fun e' => p ≠ r → e.key ≠ e'.key)) := by
          intro p hp r hr
          apply onBin_intro
          intro e he
          apply onBin_intro
          intro e' he'
          intro hne
          by_cases hpj : p = (i + 1) % B.length
          · rw [hpj, hA'j] at he; simp at he
          by_cases hrj : r = (i + 1) % B.length
          · rw [hrj, hA'j] at he'; simp at he'
          by_cases hpi : p = i <;> by_cases hri : r = i
          · exact absurd (hpi.trans hri.symm) hne
          · have heq : e = { q with psl := q.psl - 1 } := by
              rw [hpi, hA'i] at he
              exact (Option.some.inj he).symm
            have he'A : binAt A r = some e' := by
              rw [← hA'other r hri hrj]
              exact he'
            have h3 := H3 ((i + 1) % B.length) hjlt r hr
            rw [heq]
            exact onBin_elim (onBin_elim h3 hAj) he'A (fun he2 => hrj he2.symm)
          · have heq : e' = { q with psl := q.psl - 1 } := by
              rw [hri, hA'i] at he'
              exact (Option.some.inj he').symm
            have heA : binAt A p = some e := by
              rw [← hA'other p hpi hpj]
              exact he
            have h3 := H3 p hp ((i + 1) % B.length) hjlt
            rw [heq]
            exact onBin_elim (onBin_elim h3 heA) hAj hpj
          · have heA : binAt A p = some e := by
              rw [← hA'other p hpi hpj]
              exact he
            have he'A : binAt A r = some e' := by
              rw [← hA'other r hri hrj]
              exact he'
            exact onBin_elim (onBin_elim (H3 p hp r hr) heA) he'A hne
        have hj_pred : ((i + 1) % B.length + B.length - 1) % B.length = i :=
          @mod_cap_succ_pred B.length i hi
        have hHg' : onBin (binAt A' (((i + 1) % B.length + 1) % B.length)) (fun q2 =>
            2 ≤ q2.psl → someBin
              (binAt A' (((i + 1) % B.length + B.length - 1) % B.length))
              (fun e' => q2.psl - 2 ≤ e'.psl)) := by
          apply onBin_intro
          intro q2 hq2
          intro h2
          have hbq : binAt A' (((i + 1) % B.length + B.length - 1) % B.length)
              = some { q with psl := q.psl - 1 } := by
            rw [hj_pred]
            exact hA'i
          by_cases hzi : ((i + 1) % B.length + 1) % B.length = i
          · have hq2_q : q2 = { q with psl := q.psl - 1 } := by
              rw [hzi, hA'i] at hq2
              exact (Option.some.inj hq2).symm
            refine someBin_intro hbq ?_
            rw [hq2_q]
            show q.psl - 1 - 2 ≤ q.psl - 1
            omega
          · by_cases hzj : ((i + 1) % B.length + 1) % B.length = (i + 1) % B.length
            · rw [hzj, hA'j] at hq2; simp at hq2
            · have hq2A : binAt A (((i + 1) % B.length + 1) % B.length) = some q2 := by
                rw [← hA'other _ hzi hzj]
                exact hq2
              have hH := onBin_elim (H2 ((i + 1) % B.length) hjlt hij) hq2A (by omega)
              obtain ⟨e', he', hpe'⟩ := someBin_elim hH
              rw [hAj] at he'
              have he'q : q = e' := Option.some.inj he'
              refine someBin_intro hbq ?_
              show q2.psl - 2 ≤ q.psl - 1
              rw [← he'q] at hpe'
              omega
        have hps1 : pslSum (A.set i (some { q with psl := q.psl - 1 })) =
            pslSum A + (q.psl - 1) := pslSum_set_none_some hAi hiA
        have hps2 : pslSum (A.set i (some { q with psl := q.psl - 1 })) =
            pslSum A' + q.psl := by
          rw [hA']
          exact pslSum_set_some_none hXj
        have hfuel' : pslSum A' + 1 ≤ f := by omega
        have hoc1 : occCount (A.set i (some { q with psl := q.psl - 1 })) =
            occCount A + 1 := occCount_set_none_some hAi hiA
        have hoc2 := occCount_set_some_none hXj
        have hoccA' : occCount A' = occCount A := by
          rw [hA']
          omega
        have hcont : ∀ k', lookupBins A' k' = lookupBins A k' := by
          intro k'
          by_cases hk' : k' = q.key
          · have hA'look : lookupBins A' k' = some q.value := by
              apply lookupBins_of_binAt hA'i
              · show q.key = k'
                exact hk'.symm
              · intro r hr hri
                have hrB : r < B.length := by
                  simp only [hA', List.length_set] at hr
                  omega
                apply onBin_intro
                intro e2 he2
                by_cases hrj : r = (i + 1) % B.length
                · rw [hrj, hA'j] at he2; simp at he2
                · have he2A : binAt A r = some e2 := by
                    rw [← hA'other r hri hrj]
                    exact he2
                  rw [hk']
                  exact onBin_elim (onBin_elim (H3 r hrB ((i + 1) % B.length) hjlt) he2A)
                    hAj hrj
            have hAlook : lookupBins A k' = some q.value := by
              apply lookupBins_of_binAt hAj
              · exact hk'.symm
              · intro r hr hrj
                have hrB : r < B.length := by omega
                apply onBin_intro
                intro e2 he2
                rw [hk']
                exact onBin_elim (onBin_elim (H3 r hrB ((i + 1) % B.length) hjlt) he2)
                  hAj hrj
            rw [hA'look, hAlook]
          · have hstep1 : lookupBins A' k' =
                lookupBins (A.set i (some { q with psl := q.psl - 1 })) k' := by
              rw [hA']
              apply lookupBins_set_preserve
              · apply onBin_intro
                intro e2 he2
                rw [hXj] at he2
                have heq : e2 = q := (Option.some.inj he2).symm
                rw [heq]
                exact fun h => hk' h.symm
              · trivial
            have hstep2 : lookupBins (A.set i (some { q with psl := q.psl - 1 })) k' =
                lookupBins A k' := by
              apply lookupBins_set_preserve
              · rw [hAi]; trivial
              · apply onBin_intro
                intro e2 he2
                have heq : e2 = { q with psl := q.psl - 1 } := (Option.some.inj he2).symm
                rw [heq]
                show q.key ≠ k'
                exact fun h => hk' h.symm
            rw [hstep1, hstep2]
        obtain ⟨R1, R2, R3, R4⟩ := ih (A.set i (some { q with psl := q.psl - 1 }))
          ((i + 1) % B.length) A' hA'
          (by simp only [List.length_set]; omega)
          (by simp only [List.length_set, hAlen]; exact hH1')
          (by simp only [List.length_set, hAlen]; exact hH2')
          (by simp only [List.length_set, hAlen]; exact hH3')
          (by simp only [List.length_set, hAlen]; exact hHg')
          hfuel'
        refine ⟨R1, ?_, ?_, ?_⟩
        · rw [R2]
          simp only [List.length_set]
          exact hAlen
        · rw [R3]
          exact hoccA'
        · intro k'
          rw [R4 k']
          exact hcont k'

/-- `hashmap_delete` on a present key: the stored value is returned, the
binding disappears, every other binding is kept, `length` drops by one, the
invariants are restored, and `minsize` is unchanged — whether or not the
call downsizes (a refused downsize is ignored by the source). -/
theorem hashmap_delete_spec {V : Type} (m : Hashmap V) (k : List Nat) {bv : V}
    (hfull : RHInvFull m) (hmin : 1 ≤ m.minsize)
    (hl : lookupBins m.bins k = some bv) :
    ∃ m', hashmap_delete m k = (some bv, m') ∧
      RHInvFull m' ∧ m'.minsize = m.minsize ∧
      m'.length = m.length - 1 ∧
      ∀ k', lookupBins m'.bins k' = if k' = k then none else lookupBins m.bins k' := by
  obtain ⟨hinv, hZ, hlen⟩ := hfull
  have hcap : 0 < m.bins.length := hinv.cap_pos
  obtain ⟨j, e0, hjlt, hbj, hke0, hve0⟩ := lookupBins_some_exists hl
  have hstart : get_hash k % m.bins.length =
      (get_hash k % m.bins.length + 0) % m.bins.length := by
    rw [Nat.add_zero, Nat.mod_eq_of_lt (Nat.mod_lt _ hcap)]
  have hloc : delLocate m.bins (get_hash k) k (m.bins.length + 1) 0
      (get_hash k % m.bins.length) = some (j, e0) := by
    rw [hstart]
    exact delLocate_present hinv hbj hke0 (m.bins.length + 1) 0 (by omega)
      (by have := hinv.psl_lt hbj; omega)
  have hAj_none : binAt (m.bins.set j none) j = none := binAt_set_self hjlt none
  have H1A : ∀ p, p < m.bins.length → onBin (binAt (m.bins.set j none) p) (fun e =>
      e.hash = get_hash e.key ∧
      e.psl = (p + m.bins.length - e.hash % m.bins.length) % m.bins.length) := by
    intro p hp
    apply onBin_intro
    intro e he
    by_cases hpj : p = j
    · rw [hpj, hAj_none] at he; simp at he
    · rw [binAt_set_ne (fun h2 => hpj h2.symm)] at he
      exact onBin_elim (hinv.2.1 p hp) he
  have H2A : ∀ p, p < m.bins.length → p ≠ j →
      onBin (binAt (m.bins.set j none) ((p + 1) % m.bins.length)) (fun q => 1 ≤ q.psl →
        someBin (binAt (m.bins.set j none) p) (fun e' => q.psl - 1 ≤ e'.psl)) := by
    intro p hp hpj
    apply onBin_intro
    intro q2 hq2
    intro h1
    by_cases hsj : (p + 1) % m.bins.length = j
    · rw [hsj, hAj_none] at hq2; simp at hq2
    · rw [binAt_set_ne (fun h2 => hsj h2.symm)] at hq2
      obtain ⟨e', he', hp'⟩ := someBin_elim (hinv.left_nb hp hq2 h1)
      exact someBin_intro ((binAt_set_ne (fun h2 => hpj h2.symm) none).trans he') hp'
  have H3A : ∀ p, p < m.bins.length → ∀ r, r < m.bins.length →
      onBin (binAt (m.bins.set j none) p) (fun e =>
        onBin (binAt (m.bins.set j none) r) (fun e' => p ≠ r → e.key ≠ e'.key)) := by
    intro p hp r hr
    apply onBin_intro
    intro e he
    apply onBin_intro
    intro e' he'
    intro hne
    by_cases hpj : p = j
    · rw [hpj, hAj_none] at he; simp at he
    by_cases hrj : r = j
    · rw [hrj, hAj_none] at he'; simp at he'
    rw [binAt_set_ne (fun h2 => hpj h2.symm)] at he
    rw [binAt_set_ne (fun h2 => hrj h2.symm)] at he'
    exact hinv.key_ne hne he he'
  have hpred : ((j + m.bins.length - 1) % m.bins.length + 1) % m.bins.length = j :=
    mod_cap_pred_succ hjlt
  have HgA : onBin (binAt (m.bins.set j none) ((j + 1) % m.bins.length)) (fun q =>
      2 ≤ q.psl → someBin
        (binAt (m.bins.set j none) ((j + m.bins.length - 1) % m.bins.length))
        (fun e' => q.psl - 2 ≤ e'.psl)) := by
    apply onBin_intro
    intro q2 hq2
    intro h2
    by_cases hjj : (j + 1) % m.bins.length = j
    · rw [hjj, hAj_none] at hq2; simp at hq2
    · rw [binAt_set_ne (fun h3 => hjj h3.symm)] at hq2
      obtain ⟨e0', he0', hp0⟩ := someBin_elim (hinv.left_nb hjlt hq2 (by omega))
      have heq0 : e0' = e0 := by
        rw [hbj] at he0'
        exact (Option.some.inj he0').symm
      have hp0' : q2.psl - 1 ≤ e0.psl := heq0 ▸ hp0
      have hplt : (j + m.bins.length - 1) % m.bins.length < m.bins.length :=
        Nat.mod_lt _ hcap
      obtain ⟨e'', he'', hp''⟩ := someBin_elim
        (hinv.left_nb hplt (by rw [hpred]; exact hbj) (by omega))
      have hd_ne : (j + m.bins.length - 1) % m.bins.length ≠ j := by
        intro he
        apply hjj
        rw [he] at hpred
        exact hpred
      refine someBin_intro
        ((binAt_set_ne (fun h3 => hd_ne h3.symm) none).trans he'') ?_
      omega
  obtain ⟨R1, R2, R3, R4⟩ := shiftLoop_spec (pslSum m.bins + 1) m.bins j
    (m.bins.set j none) rfl hjlt H1A H2A H3A HgA
    (by have := pslSum_set_some_none hbj; omega)
  have hAcont : ∀ k', lookupBins (m.bins.set j none) k' =
      if k' = k then none else lookupBins m.bins k' := by
    intro k'
    by_cases hk' : k' = k
    · rw [if_pos hk']
      apply lookupBins_eq_none_of_slots
      intro r hr
      have hrB : r < m.bins.length := by simpa using hr
      apply onBin_intro
      intro e2 he2
      by_cases hrj : r = j
      · rw [hrj, hAj_none] at he2; simp at he2
      · rw [binAt_set_ne (fun h2 => hrj h2.symm)] at he2
        rw [hk']
        intro hkeq
        exact (hinv.key_ne hrj he2 hbj) (hkeq.trans hke0.symm)
    · rw [if_neg hk']
      apply lookupBins_set_preserve
      · apply onBin_intro
        intro e2 he2
        have heq : e2 = e0 := by
          rw [hbj] at he2
          exact (Option.some.inj he2).symm
        rw [heq, hke0]
        exact fun h2 => hk' h2.symm
      · trivial
  have hoccA : occCount m.bins = occCount (m.bins.set j none) + 1 :=
    occCount_set_some_none hbj
  have hocc1 : 1 ≤ occCount m.bins := by omega
  have hle : occCount m.bins ≤ m.bins.length := occCount_le m.bins
  have hoccN : occCount (shiftLoop (pslSum m.bins + 1) m.bins j) = m.length - 1 := by
    rw [R3]
    omega
  have hNfull : RHInvFull
      { bins := shiftLoop (pslSum m.bins + 1) m.bins j, minsize := m.minsize,
        length := m.length - 1 } := by
    refine ⟨R1, Or.inl ?_, ?_⟩
    · rw [hoccN, R2]
      omega
    · rw [hoccN]
  have hNcont : ∀ k', lookupBins (shiftLoop (pslSum m.bins + 1) m.bins j) k' =
      if k' = k then none else lookupBins m.bins k' :=
    fun k' => (R4 k').trans (hAcont k')
  unfold hashmap_delete
  simp only [hloc]
  by_cases hdn : m.length - 1 > m.minsize ∧
      m.length - 1 < approx_40_percent m.bins.length
  · rw [if_pos hdn]
    cases hres : hashmap_resize
        { bins := shiftLoop (pslSum m.bins + 1) m.bins j, minsize := m.minsize,
          length := m.length - 1 }
        (max (m.bins.length >>> 1) m.minsize) with
    | none =>
      simp only [hres]
      refine ⟨_, by rw [hve0], hNfull, rfl, rfl, hNcont⟩
    | some m'' =>
      simp only [hres]
      have hsound := hashmap_resize_sound hres hNfull.1
        (Nat.le_trans hmin (Nat.le_max_right _ _))
        (by
          have h40 := approx_40_percent_le_half m.bins.length
          have hmx := Nat.le_max_left (m.bins.length >>> 1) m.minsize
          show occCount (shiftLoop (pslSum m.bins + 1) m.bins j) ≤ _
          omega)
      refine ⟨m'', by rw [hve0], ⟨hsound.1, hsound.2.1, hsound.2.2.1⟩, hsound.2.2.2.2.2.1, ?_, ?_⟩
      · rw [hsound.2.2.1, hsound.2.2.2.1]
        exact hoccN
      · intro k'
        rw [hsound.2.2.2.2.2.2 k']
        exact hNcont k'
  · rw [if_neg hdn]
    refine ⟨_, by rw [hve0], hNfull, rfl, rfl, hNcont⟩

/-! ## The cache layer -/

/-- `cache_delete` on a block that is live on the recency list: the index
entry and the list node disappear, `size` drops by the block's size, and all
bookkeeping clauses of the cache invariant are preserved (the size bound is
not assumed, so the lemma also serves the eviction loop, which runs with an
inflated `size`). -/
theorem cache_delete_spec (c : Cache) (b : Block)
    (hfull : RHInvFull c.map) (hmin : 1 ≤ c.map.minsize)
    (hlen : c.map.length = c.lru_list.length)
    (hmem : ∀ b' ∈ c.lru_list, lookupBins c.map.bins b'.key = some b')
    (hlook : ∀ k b', lookupBins c.map.bins k = some b' → b' ∈ c.lru_list ∧ b'.key = k)
    (hknd : (c.lru_list.map Block.key).Nodup)
    (hb : b ∈ c.lru_list) :
    ∃ c', cache_delete c b = (0, c') ∧
      RHInvFull c'.map ∧ c'.map.minsize = c.map.minsize ∧
      c'.map.length = c.map.length - 1 ∧
      c'.lru_list = c.lru_list.erase b ∧
      c'.size = c.size - b.size ∧
      c'.max_size = c.max_size ∧
      (∀ b' ∈ c'.lru_list, lookupBins c'.map.bins b'.key = some b') ∧
      (∀ k b', lookupBins c'.map.bins k = some b' → b' ∈ c'.lru_list ∧ b'.key = k) ∧
      (c'.lru_list.map Block.key).Nodup ∧
      (c'.lru_list.map Block.size).sum + b.size = (c.lru_list.map Block.size).sum ∧
      c'.map.length = c'.lru_list.length ∧
      ∀ k', lookupBins c'.map.bins k' =
        if k' = b.key then none else lookupBins c.map.bins k' := by
  have hlb : lookupBins c.map.bins b.key = some b := hmem b hb
  obtain ⟨m', hdel, hfull', hmin', hlen', hcont'⟩ :=
    hashmap_delete_spec c.map b.key hfull hmin hlb
  have hndl : c.lru_list.Nodup := List.Nodup.of_map Block.key hknd
  have hce : cache_delete c b = (0,
      { map := m', lru_list := c.lru_list.erase b,
        size := c.size - b.size, max_size := c.max_size }) := by
    unfold cache_delete
    simp only [hdel]
  have hsum : (List.map Block.size (c.lru_list.erase b)).sum + b.size =
      (c.lru_list.map Block.size).sum := by
    have hs := (List.Perm.map Block.size (List.perm_cons_erase hb)).sum_eq
    simp only [List.map_cons, List.sum_cons] at hs
    omega
  have hel := List.length_erase_of_mem hb
  refine ⟨_, hce, hfull', hmin', hlen', rfl, rfl, rfl, ?_, ?_, ?_, hsum, ?_, hcont'⟩
  · intro b' hb'
    obtain ⟨hne, hmeml⟩ := (hndl.mem_erase_iff).mp hb'
    have hkne : b'.key ≠ b.key :=
      fun hk => hne (List.inj_on_of_nodup_map hknd hmeml hb hk)
    show lookupBins m'.bins b'.key = some b'
    rw [hcont' b'.key, if_neg hkne]
    exact hmem b' hmeml
  · intro k b' hlk
    have hlk2 : lookupBins m'.bins k = some b' := hlk
    rw [hcont' k] at hlk2
    by_cases hkk : k = b.key
    · rw [if_pos hkk] at hlk2
      simp at hlk2
    · rw [if_neg hkk] at hlk2
      obtain ⟨hm2, hk2⟩ := hlook k b' hlk2
      have hbne : b' ≠ b := fun he => hkk (by rw [← hk2, he])
      exact ⟨(hndl.mem_erase_iff).mpr ⟨hbne, hm2⟩, hk2⟩
  · show ((c.lru_list.erase b).map Block.key).Nodup
    exact List.Nodup.sublist (List.Sublist.map Block.key (List.erase_sublist b c.lru_list)) hknd
  · show m'.length = (c.lru_list.erase b).length
    omega

/-- The eviction loop: walking a duplicate-free snapshot that covers the
live list, deleting while over budget, preserves every bookkeeping clause
(with the constant size offset `X` of the incoming block), never grows the
index, never resurrects an absent key, and ends either within budget or
with an empty list. -/
theorem evictLoop_spec (X : Nat) :
    ∀ (rl : List Block) (c : Cache),
    RHInvFull c.map → 1 ≤ c.map.minsize →
    c.map.length = c.lru_list.length →
    (∀ b ∈ c.lru_list, lookupBins c.map.bins b.key = some b) →
    (∀ k b, lookupBins c.map.bins k = some b → b ∈ c.lru_list ∧ b.key = k) →
    (c.lru_list.map Block.key).Nodup →
    c.size = (c.lru_list.map Block.size).sum + X →
    rl.Nodup →
    (∀ b ∈ rl, b ∈ c.lru_list) →
    (∀ b ∈ c.lru_list, b ∈ rl) →
    RHInvFull (evictLoop rl c).map ∧
    (evictLoop rl c).map.minsize = c.map.minsize ∧
    (evictLoop rl c).map.length = (evictLoop rl c).lru_list.length ∧
    (∀ b ∈ (evictLoop rl c).lru_list,
      lookupBins (evictLoop rl c).map.bins b.key = some b) ∧
    (∀ k b, lookupBins (evictLoop rl c).map.bins k = some b →
      b ∈ (evictLoop rl c).lru_list ∧ b.key = k) ∧
    ((evictLoop rl c).lru_list.map Block.key).Nodup ∧
    (evictLoop rl c).size = ((evictLoop rl c).lru_list.map Block.size).sum + X ∧
    (evictLoop rl c).max_size = c.max_size ∧
    (evictLoop rl c).map.length ≤ c.map.length ∧
    ((evictLoop rl c).size ≤ (evictLoop rl c).max_size ∨ (evictLoop rl c).lru_list = []) ∧
    (∀ k', lookupBins c.map.bins k' = none →
      lookupBins (evictLoop rl c).map.bins k' = none) := by
  intro rl
  induction rl with
  | nil =>
    intro c hfull hmin hlen hmem hlook hknd hsize hnd hcova hcovb
    refine ⟨hfull, rfl, hlen, hmem, hlook, hknd, hsize, rfl, Nat.le_refl _, ?_, fun _ h => h⟩
    right
    rw [List.eq_nil_iff_forall_not_mem]
    intro a ha
    have := hcovb a ha
    simp at this
  | cons b rest ih =>
    intro c hfull hmin hlen hmem hlook hknd hsize hnd hcova hcovb
    have heq : evictLoop (b :: rest) c =
        if c.max_size < c.size then evictLoop rest (cache_delete c b).2 else c := rfl
    rw [heq]
    by_cases hsz : c.max_size < c.size
    · rw [if_pos hsz]
      have hbl : b ∈ c.lru_list := hcova b (List.mem_cons_self _ _)
      obtain ⟨c', hdel, hf', hmin', hlen', hlru', hsz', hmax', hmem', hlook', hknd',
        hsum', hll', hcont'⟩ := cache_delete_spec c b hfull hmin hlen hmem hlook hknd hbl
      have hd2 : (cache_delete c b).2 = c' := by rw [hdel]
      rw [hd2]
      have hndl : c.lru_list.Nodup := List.Nodup.of_map Block.key hknd
      have hsize' : c'.size = (c'.lru_list.map Block.size).sum + X := by
        rw [hsz', hsize]
        omega
      have hrest_nd : rest.Nodup := (List.nodup_cons.mp hnd).2
      have hbnotrest : b ∉ rest := (List.nodup_cons.mp hnd).1
      have hcova' : ∀ b' ∈ rest, b' ∈ c'.lru_list := by
        intro b' hbr
        rw [hlru']
        refine (hndl.mem_erase_iff).mpr ⟨?_, hcova b' (List.mem_cons_of_mem _ hbr)⟩
        intro he
        exact hbnotrest (he ▸ hbr)
      have hcovb' : ∀ b' ∈ c'.lru_list, b' ∈ rest := by
        intro b' hbe
        rw [hlru'] at hbe
        obtain ⟨hne, hml⟩ := (hndl.mem_erase_iff).mp hbe
        cases List.mem_cons.mp (hcovb b' hml) with
        | inl h => exact absurd h hne
        | inr h => exact h
      obtain ⟨e1, e2, e3, e4, e5, e6, e7, e8, e9, e10, e11⟩ := ih c' hf'
        (by omega) hll' hmem' hlook' hknd' hsize' hrest_nd hcova' hcovb'
      refine ⟨e1, e2.trans hmin', e3, e4, e5, e6, e7, e8.trans hmax', by omega, e10, ?_⟩
      intro k' hk'
      apply e11
      by_cases hbk : k' = b.key
      · rw [hcont' k', if_pos hbk]
      · rw [hcont' k', if_neg hbk]
        exact hk'
    · rw [if_neg hsz]
      exact ⟨hfull, rfl, hlen, hmem, hlook, hknd, hsize, rfl, Nat.le_refl _,
        Or.inl (by omega), fun _ h => h⟩

/-- `cache_insert` of a fresh key whose value fits: the call returns 0, the
new block is bound in the index and placed at the head of the recency list,
the cache invariant is preserved, the index grows by at most one entry, and
no absent key becomes present. -/
theorem cache_insert_spec (c : Cache) (key value : List Nat)
    (hC : CInv c)
    (habs : lookupBins c.map.bins key = none)
    (hfit : value.length ≤ c.max_size)
    (hbound : c.map.length ≤ INSERT_BOUND) :
    ∃ c', cache_insert c key value = (0, c') ∧ CInv c' ∧
      c'.max_size = c.max_size ∧
      c'.map.length ≤ c.map.length + 1 ∧
      lookupBins c'.map.bins key = some ⟨key, value⟩ ∧
      (∀ k', k' ≠ key → lookupBins c.map.bins k' = none →
        lookupBins c'.map.bins k' = none) := by
  obtain ⟨hfull, hmin, hlen, hmem, hlook, hknd, hsize, hmax⟩ := hC
  have hfind : hashmap_find c.map key = none := by
    rw [find_eq_lookupBins c.map key hfull.1]
    exact habs
  obtain ⟨E, hE⟩ : ∃ E, evictLoop c.lru_list.reverse
      { map := c.map, lru_list := c.lru_list,
        size := c.size + (⟨key, value⟩ : Block).size, max_size := c.max_size } = E :=
    ⟨_, rfl⟩
  have hins : cache_insert c key value = (0,
      { map := (hashmap_insert E.map key ⟨key, value⟩).2,
        lru_list := ⟨key, value⟩ :: E.lru_list,
        size := E.size, max_size := E.max_size }) := by
    unfold cache_insert
    simp only [hfind]
    rw [if_neg (show ¬ c.max_size < value.length by omega)]
    rw [hE]
  have hrevnd : c.lru_list.reverse.Nodup :=
    List.nodup_reverse.mpr (List.Nodup.of_map Block.key hknd)
  obtain ⟨e1, e2, e3, e4, e5, e6, e7, e8, e9, e10, e11⟩ :=
    evictLoop_spec ((⟨key, value⟩ : Block).size) c.lru_list.reverse
      { map := c.map, lru_list := c.lru_list,
        size := c.size + (⟨key, value⟩ : Block).size, max_size := c.max_size }
      hfull hmin hlen hmem hlook hknd
      (by
        show c.size + (⟨key, value⟩ : Block).size =
          (c.lru_list.map Block.size).sum + (⟨key, value⟩ : Block).size
        rw [hsize])
      hrevnd
      (fun b hb => List.mem_reverse.mp hb)
      (fun b hb => List.mem_reverse.mpr hb)
  rw [hE] at e1 e2 e3 e4 e5 e6 e7 e8 e9 e10 e11
  have e2' : E.map.minsize = c.map.minsize := e2
  have e8' : E.max_size = c.max_size := e8
  have e9' : E.map.length ≤ c.map.length := e9
  have e11' : ∀ k', lookupBins c.map.bins k' = none →
      lookupBins E.map.bins k' = none := e11
  have habsE : lookupBins E.map.bins key = none := e11' key habs
  obtain ⟨M, hMeq, hMfull, hMmin, hMcap, hMcont, hMlen⟩ :=
    hashmap_insert_spec E.map key (⟨key, value⟩ : Block) e1 (by omega)
  rw [habsE] at hMlen
  have hMlen2 : M.length = E.map.length + 1 := hMlen
  have hM2 : (hashmap_insert E.map key (⟨key, value⟩ : Block)).2 = M := by rw [hMeq]
  rw [hM2] at hins
  refine ⟨_, hins, ⟨hMfull, ?_, ?_, ?_, ?_, ?_, ?_, ?_⟩, ?_, ?_, ?_, ?_⟩
  · show 1 ≤ M.minsize
    omega
  · show M.length = ((⟨key, value⟩ : Block) :: E.lru_list).length
    rw [List.length_cons]
    omega
  · intro b' hb'
    have hb2 : b' ∈ (⟨key, value⟩ : Block) :: E.lru_list := hb'
    show lookupBins M.bins b'.key = some b'
    cases List.mem_cons.mp hb2 with
    | inl h =>
      subst h
      have hq := hMcont key
      rw [if_pos rfl] at hq
      exact hq
    | inr h =>
      have hsome := e4 b' h
      have hne : b'.key ≠ key := by
        intro he
        rw [he, habsE] at hsome
        simp at hsome
      have hq := hMcont b'.key
      rw [if_neg hne] at hq
      exact hq.trans hsome
  · intro k b' hlk
    have hlk2 : lookupBins M.bins k = some b' := hlk
    rw [hMcont k] at hlk2
    by_cases hkk : k = key
    · rw [if_pos hkk] at hlk2
      have hbb : b' = ⟨key, value⟩ := (Option.some.inj hlk2).symm
      subst hbb
      exact ⟨List.mem_cons_self _ _, hkk.symm⟩
    · rw [if_neg hkk] at hlk2
      obtain ⟨hm5, hk5⟩ := e5 k b' hlk2
      exact ⟨List.mem_cons_of_mem _ hm5, hk5⟩
  · show (((⟨key, value⟩ : Block) :: E.lru_list).map Block.key).Nodup
    rw [List.map_cons]
    refine List.nodup_cons.mpr ⟨?_, e6⟩
    intro hin
    obtain ⟨b', hb', hkb⟩ := List.mem_map.mp hin
    have hkb' : b'.key = key := hkb
    have hsome := e4 b' hb'
    rw [hkb', habsE] at hsome
    simp at hsome
  · show E.size = (((⟨key, value⟩ : Block) :: E.lru_list).map Block.size).sum
    rw [List.map_cons, List.sum_cons]
    omega
  · show E.size ≤ E.max_size
    cases e10 with
    | inl h => exact h
    | inr h =>
      rw [h] at e7
      simp only [List.map_nil, List.sum_nil, Nat.zero_add] at e7
      have hv : (⟨key, value⟩ : Block).size = value.length := rfl
      omega
  · exact e8'
  · show M.length ≤ c.map.length + 1
    omega
  · show lookupBins M.bins key = some ⟨key, value⟩
    have hq := hMcont key
    rw [if_pos rfl] at hq
    exact hq
  · intro k' hne hnone
    show lookupBins M.bins k' = none
    have hq := hMcont k'
    rw [if_neg hne] at hq
    rw [hq]
    exact e11' k' hnone

/-- The cache invariant only sees the recency list up to permutation, so a
promotion (`list_move_to_head`) preserves it. -/
theorem CInv_of_perm (c : Cache) (l' : List Block) (hC : CInv c)
    (hp : l'.Perm c.lru_list) : CInv { c with lru_list := l' } := by
  obtain ⟨hfull, hmin, hlen, hmem, hlook, hknd, hsize, hmax⟩ := hC
  refine ⟨hfull, hmin, ?_, ?_, ?_, ?_, ?_, hmax⟩
  · show c.map.length = l'.length
    rw [hlen, hp.length_eq]
  · intro b hb
    exact hmem b (hp.mem_iff.mp hb)
  · intro k b hlk
    obtain ⟨hm, hk⟩ := hlook k b hlk
    exact ⟨hp.mem_iff.mpr hm, hk⟩
  · show (l'.map Block.key).Nodup
    exact ((List.Perm.map Block.key hp).nodup_iff).mpr hknd
  · show c.size = (l'.map Block.size).sum
    rw [hsize, (List.Perm.map Block.size hp).sum_eq]

/-- The freshly initialized cache satisfies the invariant with an empty,
zero-byte state and a one-bin index. -/
theorem CInv_init (max_size : Nat) :
    CInv (cache_init max_size) ∧ (cache_init max_size).map.length = 0 := by
  have hi := @hashmap_init_spec Block 1 (by norm_num [HASHMAP_MAX])
  have hone : max 1 1 = 1 := rfl
  rw [hone] at hi
  have hbins : (cache_init max_size).map.bins = List.replicate 1 none := hi.2.2.1
  have hlen0 : (cache_init max_size).map.length = 0 := hi.2.2.2
  refine ⟨⟨⟨?_, ?_, ?_⟩, ?_, ?_, ?_, ?_, ?_, ?_, ?_⟩, hlen0⟩
  · rw [hbins]
    exact RHInv_replicate_none (by omega)
  · left
    rw [hbins, occCount_replicate_none]
    simp
  · rw [hlen0, hbins, occCount_replicate_none]
  · show 1 ≤ (hashmap_init 1 : Hashmap Block).minsize
    rw [hi.2.1]
  · show (cache_init max_size).map.length = ([] : List Block).length
    rw [hlen0]
    rfl
  · intro b hb
    have hb2 : b ∈ ([] : List Block) := hb
    simp at hb2
  · intro k b hlk
    rw [hbins, lookupBins_replicate_none] at hlk
    simp at hlk
  · show (([] : List Block).map Block.key).Nodup
    simp
  · rfl
  · exact Nat.zero_le _

/-- Every cache state reachable in at most `INSERT_BOUND` insertions
satisfies the invariant, and the hash index never holds more entries than
insertions performed.  (Beyond that bound the C program's behaviour is
undefined: `hashmap_insert` can fail and `cache_insert` ignores the
failure.) -/
theorem cacheReach_inv : ∀ (n : Nat) (c : Cache), CReach n c → n ≤ INSERT_BOUND →
    CInv c ∧ c.map.length ≤ n := by
  intro n c h
  induction h with
  | init max_size =>
    intro _
    obtain ⟨hC, hl⟩ := CInv_init max_size
    exact ⟨hC, by omega⟩
  | insert n c key value hr ih =>
    intro hb
    obtain ⟨hC, hle⟩ := ih (by omega)
    cases hf : hashmap_find c.map key with
    | some w =>
      have he : cache_insert c key value = (0, c) := by
        unfold cache_insert
        simp only [hf]
      rw [he]
      refine ⟨hC, ?_⟩
      show c.map.length ≤ n + 1
      omega
    | none =>
      by_cases hsz : c.max_size < value.length
      · have he : cache_insert c key value = (-1, c) := by
          unfold cache_insert
          simp only [hf]
          rw [if_pos hsz]
        rw [he]
        refine ⟨hC, ?_⟩
        show c.map.length ≤ n + 1
        omega
      · have habs : lookupBins c.map.bins key = none := by
          rw [← find_eq_lookupBins c.map key hC.1.1]
          exact hf
        obtain ⟨c', he, hC', hmax', hlen', _, _⟩ :=
          cache_insert_spec c key value hC habs (by omega) (by omega)
        rw [he]
        refine ⟨hC', ?_⟩
        show c'.map.length ≤ n + 1
        omega
  | delete n c b hr hside ih =>
    intro hb
    obtain ⟨hC, hle⟩ := ih hb
    cases hside with
    | inr habs =>
      have he : cache_delete c b = (-1, c) := by
        unfold cache_delete
        simp only [hashmap_delete_of_absent habs]
      rw [he]
      exact ⟨hC, hle⟩
    | inl hpair =>
      obtain ⟨hmem, _⟩ := hpair
      obtain ⟨hfull, hmin, hlen, hmem4, hlook, hknd, hsize, hmax⟩ := hC
      obtain ⟨c', he, hf', hmin', hlen', hlru', hsz', hmax', hmem', hlook', hknd',
        hsum', hll', hcont'⟩ := cache_delete_spec c b hfull hmin hlen hmem4 hlook hknd hmem
      rw [he]
      refine ⟨⟨hf', ?_, hll', hmem', hlook', hknd', ?_, ?_⟩, ?_⟩
      · show 1 ≤ c'.map.minsize
        omega
      · show c'.size = (c'.lru_list.map Block.size).sum
        omega
      · show c'.size ≤ c'.max_size
        omega
      · show c'.map.length ≤ n
        omega
  | find n c key hr ih =>
    intro hb
    obtain ⟨hC, hle⟩ := ih hb
    cases hf : hashmap_find c.map key with
    | none =>
      have he : cache_find c key = (none, c) := by
        unfold cache_find
        simp only [hf]
      rw [he]
      exact ⟨hC, hle⟩
    | some block =>
      have he : cache_find c key = (some block,
          { c with lru_list := if block ∈ c.lru_list
              then block :: c.lru_list.erase block else c.lru_list }) := by
        unfold cache_find
        simp only [hf]
      rw [he]
      by_cases hbm : block ∈ c.lru_list
      · rw [if_pos hbm]
        refine ⟨CInv_of_perm c _ hC (List.perm_cons_erase hbm).symm, ?_⟩
        exact hle
      · rw [if_neg hbm]
        exact ⟨hC, hle⟩

/-- Claim C1: for every sequence of cache operations starting from
`cache_init` on which the C program is well defined — at most
`INSERT_BOUND` insertions, beyond which the ignored `hashmap_insert`
failure corrupts the C state, and no delete whose call leaves the C list
head dangling (the `CReach.delete` side condition) — the `size` field
equals the sum of the sizes of the live entries, and after every operation
`size ≤ max_size`: eviction of tail entries on insert keeps the bound. -/
theorem cache_size_invariant (n : Nat) (c : Cache) (h : CReach n c)
    (hb : n ≤ INSERT_BOUND) :
    c.size = (c.lru_list.map Block.size).sum ∧ c.size ≤ c.max_size := by
  have hC := (cacheReach_inv n c h hb).1
  exact ⟨hC.2.2.2.2.2.2.1, hC.2.2.2.2.2.2.2⟩

/-- Witness for C1: the size accounting evaluated after one concrete
insertion into a fresh 16-byte cache. -/
theorem cache_size_invariant_witness :
    CReach 1 (cache_insert (cache_init 16) [97] [1, 2, 3]).2 ∧ 1 ≤ INSERT_BOUND ∧
    ((cache_insert (cache_init 16) [97] [1, 2, 3]).2.size =
      ((cache_insert (cache_init 16) [97] [1, 2, 3]).2.lru_list.map Block.size).sum ∧
     (cache_insert (cache_init 16) [97] [1, 2, 3]).2.size ≤
      (cache_insert (cache_init 16) [97] [1, 2, 3]).2.max_size) :=
  ⟨CReach.insert 0 (cache_init 16) [97] [1, 2, 3] (CReach.init 16), by decide,
    cache_size_invariant 1 (cache_insert (cache_init 16) [97] [1, 2, 3]).2
      (CReach.insert 0 (cache_init 16) [97] [1, 2, 3] (CReach.init 16)) (by decide)⟩

/-- Claim C2: round-trip at the cache interface.  From any reachable cache
(a state on which the C program is well defined, per `CReach`): inserting a
fresh key whose value fits returns 0; an immediate `cache_find` returns the
stored block, whose value bytes are exactly `v`; and after deleting that
entry `cache_find` returns none.  The deletion removes the block at the
head of the recency list, which in C leaves `lru_list->head` dangling when
other entries are live; the final observation is nevertheless faithful,
because `cache_find` of the deleted key returns `NULL` from the hash index
before touching the list, in C and in the model alike. -/
theorem cache_round_trip (n : Nat) (c : Cache) (k v : List Nat) (h : CReach n c)
    (hb : n ≤ INSERT_BOUND)
    (habs : lookupBins c.map.bins k = none)
    (hfit : v.length ≤ c.max_size) :
    (cache_insert c k v).1 = 0 ∧
    (cache_find (cache_insert c k v).2 k).1 = some ⟨k, v⟩ ∧
    (cache_find (cache_delete (cache_insert c k v).2 ⟨k, v⟩).2 k).1 = none := by
  obtain ⟨hC, hle⟩ := cacheReach_inv n c h hb
  obtain ⟨c', he, hC', hmax', hlen', hlookup, _⟩ :=
    cache_insert_spec c k v hC habs hfit (by omega)
  rw [he]
  have hfind' : hashmap_find c'.map k = some ⟨k, v⟩ := by
    rw [find_eq_lookupBins c'.map k hC'.1.1]
    exact hlookup
  refine ⟨rfl, ?_, ?_⟩
  · show (cache_find c' k).1 = some ⟨k, v⟩
    unfold cache_find
    simp only [hfind']
  · obtain ⟨hfull', hmin', hlen2, hmem', hlook', hknd', _, _⟩ := hC'
    have hbm : (⟨k, v⟩ : Block) ∈ c'.lru_list := (hlook' k ⟨k, v⟩ hlookup).1
    obtain ⟨c'', hdel, hf'', _, _, _, _, _, _, _, _, _, _, hcont''⟩ :=
      cache_delete_spec c' ⟨k, v⟩ hfull' hmin' hlen2 hmem' hlook' hknd' hbm
    rw [hdel]
    have hnone : lookupBins c''.map.bins k = none := by
      rw [hcont'' k, if_pos rfl]
    have hfindn : hashmap_find c''.map k = none := by
      rw [find_eq_lookupBins c''.map k hf''.1]
      exact hnone
    show (cache_find c'' k).1 = none
    unfold cache_find
    simp only [hfindn]

/-- Witness for C2: the round-trip evaluated on a fresh 16-byte cache with
key `"a"` and a two-byte value. -/
theorem cache_round_trip_witness :
    (lookupBins (cache_init 16).map.bins [97] = none ∧
      ([1, 2] : List Nat).length ≤ (cache_init 16).max_size) ∧
    ((cache_insert (cache_init 16) [97] [1, 2]).1 = 0 ∧
     (cache_find (cache_insert (cache_init 16) [97] [1, 2]).2 [97]).1 =
       some ⟨[97], [1, 2]⟩ ∧
     (cache_find (cache_delete (cache_insert (cache_init 16) [97] [1, 2]).2
       ⟨[97], [1, 2]⟩).2 [97]).1 = none) :=
  ⟨⟨by decide, by decide⟩,
    cache_round_trip 0 (cache_init 16) [97] [1, 2] (CReach.init 16)
      (by decide) (by decide) (by decide)⟩

end ProxyLab
